import Mathlib

/-!
Verification development for the jsonxx library (src/jsonxx.cc): a
recursive-descent JSON parser over a character stream, a tagged-union value
model, a JSON serializer and two XML serializers.

Modelling conventions:
- A stream byte is a value of Fin 256.  Plain char in the source is modelled
  as signed (range -128..127, as on the x86/x64 ABIs the library targets);
  the helper signedVal converts a byte to that signed reading.
- std::istream is modelled by IStream: the remaining bytes plus the eofbit
  and failbit flags.  The member functions get, peek, putback, clear and the
  std::ws manipulator are modelled after their C++ semantics: get at end of
  stream sets eofbit and failbit and leaves the character register unchanged
  (stale), putback first clears eofbit and is a no-op on a failed stream,
  peek at end of stream sets only eofbit, std::ws sets failbit when the
  stream is already not good and sets eofbit when it exhausts the data.
- The global settings::strict flag is threaded as an explicit Bool argument.
- The recursive Value/Array/Object parse functions take a Nat fuel argument
  and recurse on it, so that every definition is total and kernel-evaluable;
  any fuel at least the nesting size of the input is enough, and theorems
  quantify over it.
- Numeric stream conversion (operator>> into double, operator<< of double)
  is library code outside src/ and is modelled from the spec, see
  scanNumber and printNumber.
-/

abbrev Byte := Fin 256

/-- Converts a string of ASCII characters to the byte list it denotes. -/
def bytes (s : String) : List Byte :=
  s.toList.map fun c => (⟨c.toNat % 256, Nat.mod_lt _ (by norm_num)⟩ : Byte)

/-- Reads a byte as a signed char value in -128..127 (x86/x64 ABI). -/
def signedVal (c : Byte) : Int :=
  if c.val < 128 then (c.val : Int) else (c.val : Int) - 256

/-- Model of std::istream: remaining data plus the eofbit and failbit. -/
structure IStream where
  data : List Byte
  eofbit : Bool
  failbit : Bool
deriving DecidableEq, Repr

namespace IStream

/-- istream::good: no state flag is set. -/
def good (s : IStream) : Bool := !s.eofbit && !s.failbit

/-- Whitespace bytes recognized by the classic-locale isspace. -/
def isWs (c : Byte) : Bool :=
  c = 32 || c = 9 || c = 10 || c = 11 || c = 12 || c = 13

/-- Whitespace skip on a good stream: drops leading whitespace and sets
eofbit when the data is exhausted. -/
def wsCore : List Byte → IStream
  | [] => ⟨[], true, false⟩
  | c :: cs => if isWs c then wsCore cs else ⟨c :: cs, false, false⟩

/-- Model of the std::ws manipulator: on a stream that is not good it sets
failbit and extracts nothing; otherwise it skips whitespace via wsCore. -/
def ws : IStream → IStream
  | ⟨data, false, false⟩ => wsCore data
  | ⟨data, e, _⟩ => ⟨data, e, true⟩

/-- Model of istream::get(char): on a stream that is not good, or at end of
data, it sets failbit (and eofbit at end of data) and leaves the register
unchanged; otherwise it moves the head byte into the register. -/
def get : IStream → Byte → Byte × IStream
  | ⟨[], false, false⟩, ch => (ch, ⟨[], true, true⟩)
  | ⟨c :: cs, false, false⟩, _ => (c, ⟨cs, false, false⟩)
  | ⟨data, e, _⟩, ch => (ch, ⟨data, e, true⟩)

/-- Model of istream::peek: EOF is the none result; peeking at end of data
sets only eofbit, peeking a stream that is not good sets failbit. -/
def peek : IStream → Option Byte × IStream
  | ⟨[], false, false⟩ => (none, ⟨[], true, false⟩)
  | ⟨c :: cs, false, false⟩ => (some c, ⟨c :: cs, false, false⟩)
  | ⟨data, e, _⟩ => (none, ⟨data, e, true⟩)

/-- Model of istream::putback(c): first clears eofbit; then, when the stream
fails, it is a no-op that keeps failbit set, otherwise it prepends the byte
back onto the data. -/
def putback : IStream → Byte → IStream
  | ⟨data, _, true⟩, _ => ⟨data, false, true⟩
  | ⟨data, _, false⟩, c => ⟨c :: data, false, false⟩

/-- Model of istream::clear(): resets all state flags. -/
def clear : IStream → IStream
  | ⟨data, _, _⟩ => ⟨data, false, false⟩

end IStream

/-- Byte codes used by the parser and the serializers. -/
def dquoteB : Byte := 34
def squoteB : Byte := 39
def backslashB : Byte := 92
def slashB : Byte := 47
def lbrackB : Byte := 91
def rbrackB : Byte := 93
def lbraceB : Byte := 123
def rbraceB : Byte := 125
def commaB : Byte := 44
def colonB : Byte := 58
def minusB : Byte := 45
def plusB : Byte := 43
def dotB : Byte := 46
def expLowB : Byte := 101
def expUpB : Byte := 69

/-- Restores the stream on a failed literal match, as the mismatch branch of
jsonxx::match does: putback of the register byte first, then the matched
prefix from its last byte back to its first. -/
def putbackAll (s : IStream) (ch : Byte) (pre : List Byte) : IStream :=
  pre.reverse.foldl IStream.putback (s.putback ch)

/-- Loop of jsonxx::match (src/jsonxx.cc lines 25-38).  The register ch keeps
its previous (stale) value when get fails at end of data, exactly as the C++
char variable does; pre is the already matched prefix of the pattern (the
part the C++ cur pointer has walked over), rest the remaining pattern.  In
the arm where the stream is good, the flags are the literals false. -/
def matchLoop : IStream → Byte → List Byte → List Byte → Bool × IStream
  | ⟨data, false, false⟩, ch, pre, rest =>
    match rest with
    | [] => (true, ⟨data, false, false⟩)
    | p :: ps =>
      match data with
      | [] =>
        -- get fails: eofbit and failbit set, register keeps its stale value
        if ch = p then
          -- stale register equals the pattern byte: cur is advanced and the
          -- loop condition is re-checked on the now failed stream
          matchLoop ⟨[], true, true⟩ ch (pre ++ [p]) ps
        else (false, putbackAll ⟨[], true, true⟩ ch pre)
      | c :: cs =>
        if c = p then matchLoop ⟨cs, false, false⟩ c (pre ++ [p]) ps
        else (false, putbackAll ⟨cs, false, false⟩ c pre)
  | ⟨data, e, f⟩, _, _, rest => (rest.isEmpty, ⟨data, e, f⟩)

/-- Model of jsonxx::match (src/jsonxx.cc lines 21-39): skip whitespace, then
consume the literal pattern byte by byte; on a byte mismatch put every
consumed byte back; the initial register value is the char ch(0) of the
source. -/
def matchLit (pattern : List Byte) (input : IStream) : Bool × IStream :=
  matchLoop (input.ws) 0 [] pattern

/-- Decodes the byte after a backslash inside a string literal, as the switch
of jsonxx::parse_string (src/jsonxx.cc lines 60-86) does: backslash and slash
map to themselves, b f n r t to their control bytes, the delimiter to itself,
and any other byte is kept literally together with the backslash. -/
def escDecode (delim c : Byte) : List Byte :=
  if c = backslashB || c = slashB then [c]
  else if c = 98 then [8]        -- case b: backspace
  else if c = 102 then [12]      -- case f: form feed
  else if c = 110 then [10]      -- case n: newline
  else if c = 114 then [13]      -- case r: carriage return
  else if c = 116 then [9]       -- case t: tab
  else if c = delim then [c]
  else [backslashB, c]

/-- Loop of jsonxx::parse_string (src/jsonxx.cc lines 53-95), reading bytes
until the unescaped delimiter, decoding escapes into the accumulator acc
(which models the std::string the caller passed, appended to, never
cleared).  The loop is entered with clear state flags (both call sites in
parse_string guarantee this), so only the data list is passed; every exit
returns the flags the C++ stream holds there.  The register ch keeps a
stale value when get fails at end of data, as the C++ char variable does;
the results model the final check (input && ch == delimiter). -/
def psLoop (delim : Byte) : List Byte → Byte → List Byte → Bool × List Byte × IStream
  | [], ch, acc =>
    -- get fails with a stale register; the loop body still runs once and
    -- the next loop condition check then exits with failbit set
    if ch = delim then (false, acc, ⟨[], true, true⟩)
    else if ch = backslashB then (false, acc ++ [backslashB], ⟨[], true, true⟩)
    else (false, acc ++ [ch], ⟨[], true, true⟩)
  | c :: cs, _, acc =>
    if c = delim then (true, acc, ⟨cs, false, false⟩)
    else if c = backslashB then
      match cs with
      | [] =>
        -- inner get fails: register stays backslash, case backslash pushes
        -- it, then the loop condition exits with failbit set
        (false, acc ++ [backslashB], ⟨[], true, true⟩)
      | c2 :: cs2 => psLoop delim cs2 c2 (acc ++ escDecode delim c2)
    else psLoop delim cs c (acc ++ [c])

/-- Model of jsonxx::parse_string (src/jsonxx.cc lines 41-96).  The strict
flag models settings::strict; acc models the prior contents of the output
std::string slot (the function only appends to it).  Returns (success,
output slot contents, stream).  When the double-quote match succeeds the
stream flags are clear (a one-byte pattern can only succeed by a real get),
so only its data enters the loop; the uninitialized char ch of the source
is modelled as byte 0, it is only ever compared against the delimiter when
the data is already exhausted, where the call returns failure either way. -/
def parse_string (strict : Bool) (input : IStream) (acc : List Byte) :
    Bool × List Byte × IStream :=
  match matchLit [dquoteB] input with
  | (true, ⟨d, _, _⟩) => psLoop dquoteB d 0 acc
  | (false, s) =>
    if strict then (false, acc, s)
    else
      match s.peek with
      | (some c, s1) =>
        if c = squoteB then
          -- input.get(ch) consumes the opening single quote; the peek
          -- guarantees the get succeeds on a good stream
          match s1.get 0 with
          | (ch, s2) => psLoop squoteB s2.data ch acc
        else (false, acc, s1)
      | (none, s1) => (false, acc, s1)

/-- Digit test for bytes (0 to 9). -/
def isDigitB (c : Byte) : Bool := 48 ≤ c.val && c.val ≤ 57

/-- Single pass over leading digit bytes, accumulating their value into a
and their count into n, returning the rest of the list. -/
def scanDigits : List Byte → Nat → Nat → Nat × Nat × List Byte
  | [], a, n => (a, n, [])
  | c :: cs, a, n =>
    if isDigitB c then scanDigits cs (10 * a + (c.val - 48)) (n + 1)
    else (a, n, c :: cs)

/-- Optional exponent part after the mantissa: an e or E followed by an
optional sign and at least one digit; otherwise nothing is consumed. -/
def scanExp : List Byte → Int × List Byte
  | [] => (0, [])
  | c :: t =>
    if c = expLowB || c = expUpB then
      match t with
      | [] => (0, c :: t)
      | c2 :: t2 =>
        if c2 = minusB then
          match scanDigits t2 0 0 with
          | (a, n, rest) => if n = 0 then (0, c :: t) else (-(a : Int), rest)
        else if c2 = plusB then
          match scanDigits t2 0 0 with
          | (a, n, rest) => if n = 0 then (0, c :: t) else ((a : Int), rest)
        else
          match scanDigits t 0 0 with
          | (a, n, rest) => if n = 0 then (0, c :: t) else ((a : Int), rest)
    else (0, c :: t)

/-- Mantissa and what follows: digits, an optional dot with more digits,
then the optional exponent.  sgn is the already consumed sign.  Returns the
value as a decimal mantissa and a power of ten. -/
def scanMantissa (sgn : Int) (d1 : List Byte) : Option ((Int × Int) × List Byte) :=
  match scanDigits d1 0 0 with
  | (ai, ni, d2) =>
    match d2 with
    | c :: t =>
      if c = dotB then
        match scanDigits t ai 0 with
        | (af, nf, d3) =>
          if ni = 0 && nf = 0 then none
          else
            match scanExp d3 with
            | (ex, d4) => some ((sgn * (af : Int), ex - (nf : Int)), d4)
      else
        if ni = 0 then none
        else
          match scanExp (c :: t) with
          | (ex, d4) => some ((sgn * (ai : Int), ex), d4)
    | [] => if ni = 0 then none else some ((sgn * (ai : Int), 0), [])

/-- Modelled from the spec: numbers are read by the native numeric stream
conversion (operator>> into a double, library code not under src/), which
per the spec accepts an optional sign, digits with an optional fraction and
an optional exponent, and on failure leaves the position unchanged so that
subsequent parsers can retry at the same position.  The value is kept exact
as a decimal mantissa and a power of ten. -/
def scanNumber : List Byte → Option ((Int × Int) × List Byte)
  | [] => none
  | c :: t =>
    if c = minusB then scanMantissa (-1) t
    else if c = plusB then scanMantissa 1 t
    else scanMantissa 1 (c :: t)

/-- Model of jsonxx::parse_number (src/jsonxx.cc lines 120-128): skip
whitespace, convert a numeric literal (scanNumber models the conversion);
on failure input.clear() resets the state flags; on success the stream has
eofbit exactly when the conversion stopped at end of data. -/
def parse_number (input : IStream) : Option (Int × Int) × IStream :=
  match input.ws with
  | ⟨data, false, false⟩ =>
    match scanNumber data with
    | none => (none, ⟨data, false, false⟩)
    | some (v, rest) =>
      match rest with
      | [] => (some v, ⟨[], true, false⟩)
      | r :: rs => (some v, ⟨r :: rs, false, false⟩)
  | ⟨data, _, _⟩ =>
    -- the extraction sentry fails and sets failbit; clear() then resets
    -- the flags, leaving the data untouched
    (none, ⟨data, false, false⟩)

/-- Model of jsonxx::parse_bool (src/jsonxx.cc lines 98-108). -/
def parse_bool (input : IStream) : Option Bool × IStream :=
  match matchLit (bytes "true") input with
  | (true, s) => (some true, s)
  | (false, s) =>
    match matchLit (bytes "false") s with
    | (true, s1) => (some false, s1)
    | (false, s1) => (none, s1)

/-- Model of jsonxx::parse_null (src/jsonxx.cc lines 110-118): the literal
null, or in lenient mode a bare position right before a comma. -/
def parse_null (strict : Bool) (input : IStream) : Bool × IStream :=
  match matchLit (bytes "null") input with
  | (true, s) => (true, s)
  | (false, s) =>
    if strict then (false, s)
    else
      match s.peek with
      | (r, s1) => (r = some commaB, s1)

/-- The tagged-union value tree: one variant per jsonxx::Value type.  Numbers
are kept exact as mantissa times a power of ten (see scanNumber); strings are
raw byte lists; objects are association lists kept in std::map order, that
is strictly ascending by key (see mapInsert). -/
inductive JValue where
  | null : JValue
  | bool (b : Bool) : JValue
  | number (m : Int) (e : Int) : JValue
  | str (s : List Byte) : JValue
  | arr (vs : List JValue) : JValue
  | obj (kvs : List (List Byte × JValue)) : JValue

mutual

/-- Decidable equality of value trees (variant by variant, recursively). -/
def JValue.decEq : (a b : JValue) → Decidable (a = b)
  | .null, .null => isTrue rfl
  | .bool a, .bool b =>
    if h : a = b then isTrue (by rw [h]) else isFalse (by simp [h])
  | .number m e, .number n f =>
    if h : m = n then
      if h2 : e = f then isTrue (by rw [h, h2]) else isFalse (by simp [h2])
    else isFalse (by simp [h])
  | .str s, .str t =>
    if h : s = t then isTrue (by rw [h]) else isFalse (by simp [h])
  | .arr vs, .arr ws =>
    match JValue.decEqList vs ws with
    | isTrue h => isTrue (by rw [h])
    | isFalse h => isFalse (by simp [h])
  | .obj ks, .obj ls =>
    match JValue.decEqKVs ks ls with
    | isTrue h => isTrue (by rw [h])
    | isFalse h => isFalse (by simp [h])
  | .null, .bool _ => isFalse (by simp)
  | .null, .number _ _ => isFalse (by simp)
  | .null, .str _ => isFalse (by simp)
  | .null, .arr _ => isFalse (by simp)
  | .null, .obj _ => isFalse (by simp)
  | .bool _, .null => isFalse (by simp)
  | .bool _, .number _ _ => isFalse (by simp)
  | .bool _, .str _ => isFalse (by simp)
  | .bool _, .arr _ => isFalse (by simp)
  | .bool _, .obj _ => isFalse (by simp)
  | .number _ _, .null => isFalse (by simp)
  | .number _ _, .bool _ => isFalse (by simp)
  | .number _ _, .str _ => isFalse (by simp)
  | .number _ _, .arr _ => isFalse (by simp)
  | .number _ _, .obj _ => isFalse (by simp)
  | .str _, .null => isFalse (by simp)
  | .str _, .bool _ => isFalse (by simp)
  | .str _, .number _ _ => isFalse (by simp)
  | .str _, .arr _ => isFalse (by simp)
  | .str _, .obj _ => isFalse (by simp)
  | .arr _, .null => isFalse (by simp)
  | .arr _, .bool _ => isFalse (by simp)
  | .arr _, .number _ _ => isFalse (by simp)
  | .arr _, .str _ => isFalse (by simp)
  | .arr _, .obj _ => isFalse (by simp)
  | .obj _, .null => isFalse (by simp)
  | .obj _, .bool _ => isFalse (by simp)
  | .obj _, .number _ _ => isFalse (by simp)
  | .obj _, .str _ => isFalse (by simp)
  | .obj _, .arr _ => isFalse (by simp)

/-- Decidable equality of value lists. -/
def JValue.decEqList : (a b : List JValue) → Decidable (a = b)
  | [], [] => isTrue rfl
  | [], _ :: _ => isFalse (by simp)
  | _ :: _, [] => isFalse (by simp)
  | v :: vs, w :: ws =>
    match JValue.decEq v w with
    | isFalse h => isFalse (by simp [h])
    | isTrue h =>
      match JValue.decEqList vs ws with
      | isTrue h2 => isTrue (by rw [h, h2])
      | isFalse h2 => isFalse (by simp [h2])

/-- Decidable equality of key-value lists. -/
def JValue.decEqKVs : (a b : List (List Byte × JValue)) → Decidable (a = b)
  | [], [] => isTrue rfl
  | [], _ :: _ => isFalse (by simp)
  | _ :: _, [] => isFalse (by simp)
  | (k, v) :: vs, (l, w) :: ws =>
    if hk : k = l then
      match JValue.decEq v w with
      | isFalse h => isFalse (by simp [h])
      | isTrue h =>
        match JValue.decEqKVs vs ws with
        | isTrue h2 => isTrue (by rw [hk, h, h2])
        | isFalse h2 => isFalse (by simp [h2])
    else isFalse (by simp [hk])

end

instance : DecidableEq JValue := JValue.decEq

/-- Lexicographic byte-list order, the std::string operator< used by
std::map (char_traits compares as unsigned char). -/
def keyLt : List Byte → List Byte → Bool
  | [], [] => false
  | [], _ :: _ => true
  | _ :: _, [] => false
  | a :: as, b :: bs => a < b || (a = b && keyLt as bs)

/-- Insertion into the std::map model: keeps the association list strictly
ascending by key; an existing key has its value overwritten, as the
value_map_[key] = v assignment of Object::parse does. -/
def mapInsert : List (List Byte × JValue) → List Byte → JValue → List (List Byte × JValue)
  | [], k, v => [(k, v)]
  | (k1, v1) :: t, k, v =>
    if keyLt k k1 then (k, v) :: (k1, v1) :: t
    else if keyLt k1 k then (k1, v1) :: mapInsert t k v
    else (k, v) :: t

/-- Bundle of the five mutually recursive parse functions at one fuel level:
Value::parse, Array::parse with its element loop, Object::parse with its
pair loop (src/jsonxx.cc lines 139-175, 191-229, 240-260). -/
structure PStep where
  val : IStream → Option JValue × IStream
  arr : IStream → Option (List JValue) × IStream
  arrLp : IStream → List JValue → List JValue × IStream
  obj : IStream → Option (List (List Byte × JValue)) × IStream
  objLp : IStream → List (List Byte × JValue) → Option (List (List Byte × JValue)) × IStream

/-- Zero-fuel bundle: every function gives up, a loop yields its accumulator.
With enough fuel (any value at least the nesting size of the input) these
cases are never reached. -/
def parseBase : PStep where
  val := fun s => (none, s)
  arr := fun s => (none, s)
  arrLp := fun s acc => (acc, s)
  obj := fun s => (none, s)
  objLp := fun s acc => (some acc, s)

/-- One step of the recursion: the bodies of the jsonxx parse functions,
with every recursive call going through the previous level r.  Streams are
threaded exactly as the C++ code leaves them, including after failed
attempts.
- val is Value::parse (src/jsonxx.cc lines 191-229): tries parse_string,
  parse_number, parse_bool, parse_null in order, then Array::parse when the
  peeked byte is a left bracket, then Object::parse unconditionally.
- arr is Array::parse (lines 240-260): match the opening bracket, run the
  element do-while loop, then require the closing bracket.
- arrLp is the element loop: parse a value (a failure quietly ends the
  loop), append it, continue while a comma matches.
- obj is Object::parse (lines 139-175): match the opening brace, accept an
  immediately closing brace as the empty object, otherwise run the pair
  loop and require the closing brace.
- objLp is the pair loop: parse a string key (on a key failure, lenient
  mode with a peeked closing brace breaks gracefully, anything else is the
  hard-failure none result), require a colon, parse a value (a failure
  quietly breaks), store the pair via mapInsert, continue while a comma
  matches. -/
def parseStep (strict : Bool) (r : PStep) : PStep where
  val := fun s =>
    match parse_string strict s [] with
    | (true, sv, s1) => (some (.str sv), s1)
    | (false, _, s1) =>
      match parse_number s1 with
      | (some n, s2) => (some (.number n.1 n.2), s2)
      | (none, s2) =>
        match parse_bool s2 with
        | (some b, s3) => (some (.bool b), s3)
        | (none, s3) =>
          match parse_null strict s3 with
          | (true, s4) => (some .null, s4)
          | (false, s4) =>
            match s4.peek with
            | (rk, s5) =>
              if rk = some lbrackB then
                match r.arr s5 with
                | (some vs, s6) => (some (.arr vs), s6)
                | (none, s6) =>
                  match r.obj s6 with
                  | (some kvs, s7) => (some (.obj kvs), s7)
                  | (none, s7) => (none, s7)
              else
                match r.obj s5 with
                | (some kvs, s7) => (some (.obj kvs), s7)
                | (none, s7) => (none, s7)
  arr := fun s =>
    match matchLit [lbrackB] s with
    | (false, s1) => (none, s1)
    | (true, s1) =>
      match r.arrLp s1 [] with
      | (vs, s2) =>
        match matchLit [rbrackB] s2 with
        | (true, s3) => (some vs, s3)
        | (false, s3) => (none, s3)
  arrLp := fun s acc =>
    match r.val s with
    | (none, s1) => (acc, s1)
    | (some v, s1) =>
      match matchLit [commaB] s1 with
      | (true, s2) => r.arrLp s2 (acc ++ [v])
      | (false, s2) => (acc ++ [v], s2)
  obj := fun s =>
    match matchLit [lbraceB] s with
    | (false, s1) => (none, s1)
    | (true, s1) =>
      match matchLit [rbraceB] s1 with
      | (true, s2) => (some [], s2)
      | (false, s2) =>
        match r.objLp s2 [] with
        | (none, s3) => (none, s3)
        | (some kvs, s3) =>
          match matchLit [rbraceB] s3 with
          | (true, s4) => (some kvs, s4)
          | (false, s4) => (none, s4)
  objLp := fun s acc =>
    match parse_string strict s [] with
    | (false, _, s1) =>
      if strict then (none, s1)
      else
        match s1.peek with
        | (rk, s2) => if rk = some rbraceB then (some acc, s2) else (none, s2)
    | (true, key, s1) =>
      match matchLit [colonB] s1 with
      | (false, s2) => (none, s2)
      | (true, s2) =>
        match r.val s2 with
        | (none, s3) => (some acc, s3)
        | (some v, s3) =>
          match matchLit [commaB] s3 with
          | (true, s4) => r.objLp s4 (mapInsert acc key v)
          | (false, s4) => (some (mapInsert acc key v), s4)

/-- The parse functions at a given fuel: fuel-many iterations of parseStep. -/
def parseFns (strict : Bool) : Nat → PStep
  | 0 => parseBase
  | fuel + 1 => parseStep strict (parseFns strict fuel)

/-- Model of Value::parse (src/jsonxx.cc lines 191-229), see parseStep. -/
def Value.parse (strict : Bool) (fuel : Nat) (s : IStream) : Option JValue × IStream :=
  (parseFns strict fuel).val s

/-- Model of Array::parse (src/jsonxx.cc lines 240-260), see parseStep. -/
def Array.parse (strict : Bool) (fuel : Nat) (s : IStream) :
    Option (List JValue) × IStream :=
  (parseFns strict fuel).arr s

/-- Model of Object::parse (src/jsonxx.cc lines 139-175), see parseStep. -/
def Object.parse (strict : Bool) (fuel : Nat) (s : IStream) :
    Option (List (List Byte × JValue)) × IStream :=
  (parseFns strict fuel).obj s

/-- Digit byte for a value below the base: 0 to 9 then lowercase a to f, as
std::hex with the default fill produces. -/
def digitB (d : Nat) : Byte :=
  ⟨(if d < 10 then 48 + d else 87 + d) % 256, Nat.mod_lt _ (by norm_num)⟩

/-- Big-endian digits of n in the given base, empty for zero; the fuel only
needs to be at least the digit count, and every caller passes at least n. -/
def digitsAux (base : Nat) : Nat → Nat → List Byte
  | 0, _ => []
  | fuel + 1, n => if n = 0 then [] else digitsAux base fuel (n / base) ++ [digitB (n % base)]

/-- Decimal digits of a natural number, as the numeric inserter prints it. -/
def natDigits (n : Nat) : List Byte :=
  if n = 0 then [digitB 0] else digitsAux 10 n n

/-- Decimal digits of an integer with its sign. -/
def intDigits (i : Int) : List Byte :=
  (if i < 0 then [minusB] else []) ++ natDigits i.natAbs

/-- Modelled from the spec: the default numeric-to-text conversion of the
platform (operator<< of double, library code not under src/), printed here
as the exact mantissa followed, for a nonzero exponent, by e and the
exponent, a form the numeric reader accepts. -/
def printNumber (m e : Int) : List Byte :=
  intDigits m ++ (if e = 0 then [] else expLowB :: intDigits e)

/-- Hex rendering of static_cast<int>(char) under std::hex, std::setw(6) and
std::setfill of zero: the int is shown as its 32-bit unsigned value in
lowercase hex digits, left padded with zeros to at least six digits. -/
def hexPad6 (v : Int) : List Byte :=
  let u := (v % 4294967296).toNat
  let ds := if u = 0 then [digitB 0] else digitsAux 16 u u
  List.replicate (6 - ds.length) (digitB 0) ++ ds

/-- Per-byte rendering of jsonxx::stream_string (src/jsonxx.cc lines 267-300):
the eight switch cases become two-byte escapes; otherwise a byte whose
signed char value is below 32 becomes a backslash-u hex escape via hexPad6;
any other byte passes through raw. -/
def escChar (c : Byte) : List Byte :=
  if c = dquoteB then [backslashB, dquoteB]
  else if c = backslashB then [backslashB, backslashB]
  else if c = slashB then [backslashB, slashB]
  else if c = 8 then [backslashB, 98]
  else if c = 12 then [backslashB, 102]
  else if c = 10 then [backslashB, 110]
  else if c = 13 then [backslashB, 114]
  else if c = 9 then [backslashB, 116]
  else if signedVal c < 32 then [backslashB, 117] ++ hexPad6 (signedVal c)
  else [c]

/-- The loop of jsonxx::stream_string: each byte rendered by escChar. -/
def escBody : List Byte → List Byte
  | [] => []
  | c :: cs => escChar c ++ escBody cs

/-- Model of jsonxx::stream_string (src/jsonxx.cc lines 262-304): the byte
sequence wrapped in double quotes with every byte rendered by escChar. -/
def stream_string (s : List Byte) : List Byte :=
  [dquoteB] ++ escBody s ++ [dquoteB]

mutual

/-- Model of operator<< for jsonxx::Value (src/jsonxx.cc lines 308-328),
dispatching on the active variant. -/
def serializeValue : JValue → List Byte
  | .number m e => printNumber m e
  | .str s => stream_string s
  | .bool true => bytes "true"
  | .bool false => bytes "false"
  | .null => bytes "null"
  | .obj kvs => [lbraceB] ++ serializeObjBody kvs ++ [rbraceB]
  | .arr vs => [lbrackB] ++ serializeArrBody vs ++ [rbrackB]

/-- Model of the element loop of operator<< for jsonxx::Array (src/jsonxx.cc
lines 330-342): elements joined by comma and space. -/
def serializeArrBody : List JValue → List Byte
  | [] => []
  | [v] => serializeValue v
  | v :: w :: t => serializeValue v ++ bytes ", " ++ serializeArrBody (w :: t)

/-- Model of the pair loop of operator<< for jsonxx::Object (src/jsonxx.cc
lines 344-357): each pair rendered as quoted key, colon, space, value, the
pairs joined by comma and space, in the stored (key-sorted) order. -/
def serializeObjBody : List (List Byte × JValue) → List Byte
  | [] => []
  | [(k, v)] => stream_string k ++ bytes ": " ++ serializeValue v
  | (k, v) :: p :: t =>
    stream_string k ++ bytes ": " ++ serializeValue v ++ bytes ", " ++ serializeObjBody (p :: t)

end

mutual

/-- Fuel sufficient for parsing back the serialization of a value: a unit
per recursion level plus a unit per tree node and loop iteration. -/
def fuelFor : JValue → Nat
  | .null => 1
  | .bool _ => 1
  | .number _ _ => 1
  | .str _ => 1
  | .arr vs => 3 + fuelForList vs
  | .obj kvs => 3 + fuelForKVs kvs

/-- Fuel for an element list, see fuelFor. -/
def fuelForList : List JValue → Nat
  | [] => 1
  | v :: t => 1 + fuelFor v + fuelForList t

/-- Fuel for a pair list, see fuelFor. -/
def fuelForKVs : List (List Byte × JValue) → Nat
  | [] => 1
  | (_, v) :: t => 1 + fuelFor v + fuelForKVs t

end

/-- The type_ discriminator of jsonxx::Value (src/jsonxx.cc, jsonxx.h). -/
inductive VType where
  | INVALID_ | STRING_ | NUMBER_ | BOOL_ | NULL_ | ARRAY_ | OBJECT_
deriving DecidableEq, Repr

/-- The discriminator value a successful parse assigns. -/
def tagOf : JValue → VType
  | .null => .NULL_
  | .bool _ => .BOOL_
  | .number _ _ => .NUMBER_
  | .str _ => .STRING_
  | .arr _ => .ARRAY_
  | .obj _ => .OBJECT_

/-- The type_ field of a Value across Value::parse (src/jsonxx.cc lines
179-229): Value::reset() deletes owned payloads but never writes type_, and
only the success branches of Value::parse assign it; so after the call the
field holds the new variant on success and the pre-call value prev on
failure.  Returns (success, type_ field, stream). -/
def Value.parseInto (strict : Bool) (fuel : Nat) (prev : VType) (s : IStream) :
    Bool × VType × IStream :=
  match Value.parse strict fuel s with
  | (some v, s1) => (true, tagOf v, s1)
  | (none, s1) => (false, prev, s1)

/-- The two XML output dialects of the serializer (the format enumerators
jsonx and jxml used by src/jsonxx.cc lines 395-534). -/
inductive Format where
  | jsonx | jxml
deriving DecidableEq, Repr

/-- Model of jsonxx::escape_string (src/jsonxx.cc lines 365-378): double and
single quotes become backslash escapes, every other byte is itself. -/
def escape_string : List Byte → List Byte
  | [] => []
  | c :: cs =>
    (if c = dquoteB then [backslashB, dquoteB]
     else if c = squoteB then [backslashB, squoteB]
     else [c]) ++ escape_string cs

/-- Model of jsonxx::escape_tag (src/jsonxx.cc lines 380-393): the angle
brackets become entities, every other byte is itself. -/
def escape_tag : List Byte → List Byte
  | [] => []
  | c :: cs =>
    (if c = 60 then bytes "&lt;"
     else if c = 62 then bytes "&gt;"
     else [c]) ++ escape_tag cs

/-- Model of jsonxx::open_tag (src/jsonxx.cc lines 395-425).  The type is the
single-character code (0 b a s o n as bytes); in the jsonx dialect an
unlisted type falls through to the json:null tag as the switch default. -/
def open_tag (fmt : Format) (type : Byte) (name attr : List Byte) : List Byte :=
  match fmt with
  | .jxml =>
    let tagname :=
      if name.isEmpty then bytes "j son=\"" ++ [type] ++ [dquoteB]
      else bytes "j son=\"" ++ [type] ++ [colonB] ++ escape_string name ++ [dquoteB]
    [60] ++ tagname ++ attr ++ [62]
  | .jsonx =>
    let nm := if !name.isEmpty then bytes " name=\"" ++ escape_string name ++ [dquoteB] else []
    let tagname :=
      if type = 98 then bytes "json:boolean" ++ nm
      else if type = 97 then bytes "json:array" ++ nm
      else if type = 115 then bytes "json:string" ++ nm
      else if type = 111 then bytes "json:object" ++ nm
      else if type = 110 then bytes "json:number" ++ nm
      else bytes "json:null" ++ nm
    [60] ++ tagname ++ attr ++ [62]

/-- Model of jsonxx::close_tag (src/jsonxx.cc lines 427-447). -/
def close_tag (fmt : Format) (type : Byte) : List Byte :=
  match fmt with
  | .jxml => bytes "</j>"
  | .jsonx =>
    if type = 98 then bytes "</json:boolean>"
    else if type = 97 then bytes "</json:array>"
    else if type = 111 then bytes "</json:object>"
    else if type = 115 then bytes "</json:string>"
    else if type = 110 then bytes "</json:number>"
    else bytes "</json:null>"

mutual

/-- Model of jsonxx::tag (src/jsonxx.cc lines 449-491): one XML element per
tree node, indented with depth tabs and terminated by a newline; array and
object children are rendered one level deeper and always with the default
empty attribute string, so a caller-supplied attribute only reaches the
node tag itself. -/
def tag (fmt : Format) (depth : Nat) (name : List Byte) (t : JValue) (attr : List Byte) : List Byte :=
  match t with
  | .null =>
    List.replicate depth 9 ++ open_tag fmt 48 name (bytes " /") ++ [10]
  | .bool b =>
    List.replicate depth 9 ++ open_tag fmt 98 name []
      ++ (if b then bytes "true" else bytes "false") ++ close_tag fmt 98 ++ [10]
  | .arr vs =>
    List.replicate depth 9 ++ open_tag fmt 97 name attr ++ [10]
      ++ tagList fmt (depth + 1) vs
      ++ List.replicate depth 9 ++ close_tag fmt 97 ++ [10]
  | .str s =>
    List.replicate depth 9 ++ open_tag fmt 115 name []
      ++ escape_tag s ++ close_tag fmt 115 ++ [10]
  | .obj kvs =>
    List.replicate depth 9 ++ open_tag fmt 111 name attr ++ [10]
      ++ tagKVs fmt (depth + 1) kvs
      ++ List.replicate depth 9 ++ close_tag fmt 111 ++ [10]
  | .number m e =>
    List.replicate depth 9 ++ open_tag fmt 110 name []
      ++ printNumber m e ++ close_tag fmt 110 ++ [10]

/-- Array children of jsonxx::tag: each with an empty name and the default
empty attribute string. -/
def tagList (fmt : Format) (depth : Nat) : List JValue → List Byte
  | [] => []
  | v :: t => tag fmt depth [] v [] ++ tagList fmt depth t

/-- Object children of jsonxx::tag: each named by its key, with the default
empty attribute string. -/
def tagKVs (fmt : Format) (depth : Nat) : List (List Byte × JValue) → List Byte
  | [] => []
  | (k, v) :: t => tag fmt depth k v [] ++ tagKVs fmt depth t

end

/-- Modelled from the spec: the JSONXX_XML_TAG comment constant comes from
the header jsonxx.h, which is not under src/; its exact text does not
matter to any claim, only its placement inside the default header. -/
def JSONXX_XML_TAG : List Byte := bytes "<!-- generated by jsonxx -->"

/-- Model of jsonxx::defheader (src/jsonxx.cc lines 493-499): the same
default XML declaration header for both dialects. -/
def defheader (_ : Format) : List Byte :=
  bytes "<?xml version=\"1.0\" encoding=\"UTF-8\"?>" ++ JSONXX_XML_TAG ++ [10]

/-- Model of jsonxx::defrootattrib (src/jsonxx.cc lines 500-506): the jsonx
schema-location and namespace block, and nothing for jxml. -/
def defrootattrib : Format → List Byte
  | .jsonx =>
    bytes " xsi:schemaLocation=\"http://www.datapower.com/schemas/json jsonx.xsd\""
      ++ bytes " xmlns:xsi=\"http://www.w3.org/2001/XMLSchema-instance\""
      ++ bytes " xmlns:json=\"http://www.ibm.com/xmlns/prod/2009/jsonx\""
  | .jxml => []

/-- Model of Object::xml (src/jsonxx.cc lines 510-521): render the object as
the root tag with the caller attribute block, the default one when the
caller passes an empty string, and put the caller header, the default one
when empty, in front. -/
def Object.xml (fmt : Format) (header attrib : List Byte)
    (o : List (List Byte × JValue)) : List Byte :=
  (if header.isEmpty then defheader fmt else header)
    ++ tag fmt 0 [] (.obj o) (if attrib.isEmpty then defrootattrib fmt else attrib)

/-- Model of Array::xml (src/jsonxx.cc lines 523-534), as Object::xml. -/
def Array.xml (fmt : Format) (header attrib : List Byte)
    (vs : List JValue) : List Byte :=
  (if header.isEmpty then defheader fmt else header)
    ++ tag fmt 0 [] (.arr vs) (if attrib.isEmpty then defrootattrib fmt else attrib)

/-- Chains one parse attempt into the next: on success stop, on failure run
the next attempt on the stream the failed attempt left behind. -/
def attemptThen (first next : IStream → Option JValue × IStream) (s : IStream) :
    Option JValue × IStream :=
  match first s with
  | (some v, s1) => (some v, s1)
  | (none, s1) => next s1

/-- String attempt of Value::parse, as a single attempt. -/
def stringAttempt (strict : Bool) (s : IStream) : Option JValue × IStream :=
  match parse_string strict s [] with
  | (true, sv, s1) => (some (.str sv), s1)
  | (false, _, s1) => (none, s1)

/-- Number attempt of Value::parse, as a single attempt. -/
def numberAttempt (s : IStream) : Option JValue × IStream :=
  match parse_number s with
  | (some n, s1) => (some (.number n.1 n.2), s1)
  | (none, s1) => (none, s1)

/-- Boolean attempt of Value::parse, as a single attempt. -/
def boolAttempt (s : IStream) : Option JValue × IStream :=
  match parse_bool s with
  | (some b, s1) => (some (.bool b), s1)
  | (none, s1) => (none, s1)

/-- Null attempt of Value::parse, as a single attempt. -/
def nullAttempt (strict : Bool) (s : IStream) : Option JValue × IStream :=
  match parse_null strict s with
  | (true, s1) => (some .null, s1)
  | (false, s1) => (none, s1)

/-- Array attempt of Value::parse, guarded by peeking for the opening
bracket: the full array parse runs only when the peek yields it. -/
def arrayPeekAttempt (strict : Bool) (fuel : Nat) (s : IStream) : Option JValue × IStream :=
  match s.peek with
  | (r, s1) =>
    if r = some lbrackB then
      match Array.parse strict fuel s1 with
      | (some vs, s2) => (some (.arr vs), s2)
      | (none, s2) => (none, s2)
    else (none, s1)

/-- Object attempt of Value::parse, attempted with no peek guard. -/
def objectAttempt (strict : Bool) (fuel : Nat) (s : IStream) : Option JValue × IStream :=
  match Object.parse strict fuel s with
  | (some kvs, s1) => (some (.obj kvs), s1)
  | (none, s1) => (none, s1)

/-- Stated from the claim wording (spec section 4.3): the variant attempts
chained in the fixed priority order String, Number, Boolean, Null, then the
peek-guarded Array, then Object unconditionally, each later attempt running
on the stream its failed predecessor left. -/
def specOrderValueParse (strict : Bool) : Nat → IStream → Option JValue × IStream
  | 0, s => (none, s)
  | fuel + 1, s =>
    attemptThen (stringAttempt strict)
      (attemptThen numberAttempt
        (attemptThen boolAttempt
          (attemptThen (nullAttempt strict)
            (attemptThen (arrayPeekAttempt strict fuel)
              (objectAttempt strict fuel))))) s

/-- The element loop of Array::parse at a given fuel, see parseStep. -/
def Array.loop (strict : Bool) (fuel : Nat) (s : IStream) (acc : List JValue) :
    List JValue × IStream :=
  (parseFns strict fuel).arrLp s acc

/-- The pair loop of Object::parse at a given fuel, see parseStep. -/
def Object.loop (strict : Bool) (fuel : Nat) (s : IStream)
    (acc : List (List Byte × JValue)) :
    Option (List (List Byte × JValue)) × IStream :=
  (parseFns strict fuel).objLp s acc

/-- A byte that survives the serialize-then-parse round trip inside a string
literal: either one of the five control bytes with two-character escapes
(backspace, tab, newline, form feed, carriage return) or a byte that is
rendered raw (printable range 32..127, where the signed char reading is
nonnegative).  Any other byte is rendered as a backslash-u escape, which
parse_string does not decode. -/
def goodStrB (c : Byte) : Bool :=
  (32 ≤ c.val && c.val ≤ 127) || c = 8 || c = 9 || c = 10 || c = 12 || c = 13

mutual

/-- Every string payload and every object key of the tree consists of bytes
that survive the round trip, see goodStrB. -/
def goodStringsB : JValue → Bool
  | .null => true
  | .bool _ => true
  | .number _ _ => true
  | .str s => s.all goodStrB
  | .arr vs => goodStringsList vs
  | .obj kvs => goodStringsKVs kvs

/-- goodStringsB over an element list. -/
def goodStringsList : List JValue → Bool
  | [] => true
  | v :: t => goodStringsB v && goodStringsList t

/-- goodStringsB over a pair list, keys included. -/
def goodStringsKVs : List (List Byte × JValue) → Bool
  | [] => true
  | (k, v) :: t => k.all goodStrB && goodStringsB v && goodStringsKVs t

end

/-- Keys of a pair list are strictly ascending in the std::map order. -/
def keysSortedB : List (List Byte × JValue) → Bool
  | [] => true
  | [_] => true
  | (k1, _) :: (k2, v2) :: t => keyLt k1 k2 && keysSortedB ((k2, v2) :: t)

mutual

/-- Every object node of the tree stores its pairs strictly ascending by
key, the invariant std::map maintains. -/
def objSortedB : JValue → Bool
  | .null => true
  | .bool _ => true
  | .number _ _ => true
  | .str _ => true
  | .arr vs => objSortedList vs
  | .obj kvs => keysSortedB kvs && objSortedKVs kvs

/-- objSortedB over an element list. -/
def objSortedList : List JValue → Bool
  | [] => true
  | v :: t => objSortedB v && objSortedList t

/-- objSortedB over a pair list. -/
def objSortedKVs : List (List Byte × JValue) → Bool
  | [] => true
  | (_, v) :: t => objSortedB v && objSortedKVs t

end

/-- Bytes that may directly follow a serialized value without extending it:
the separators and closers the container serializers emit, or end of data.
The numeric reader stops exactly there. -/
def restOKB : List Byte → Bool
  | [] => true
  | c :: _ => c = commaB || c = rbrackB || c = rbraceB

/-- State flags after parsing back a serialized value: only the numeric
conversion can stop at end of data and raise eofbit. -/
def eofAfter (v : JValue) (rest : List Byte) : Bool :=
  match v with
  | .number _ _ => rest.isEmpty
  | _ => false

/-- The map built by inserting the given pairs, in the given order, into an
initially empty std::map model, exactly as the value_map_[key] = v stores
of Object::parse do. -/
def buildMap (pairs : List (List Byte × JValue)) : List (List Byte × JValue) :=
  pairs.foldl (fun acc kv => mapInsert acc kv.1 kv.2) []

/-- Lower bound test: the key b is strictly below the first key of the pair
list (vacuously true for the empty list). -/
def lbKeyB (b : List Byte) : List (List Byte × JValue) → Bool
  | [] => true
  | (k1, _) :: _ => keyLt b k1

/-! Helper lemmas about the stream primitives and the token matcher. -/

theorem foldl_putback_good (l : List Byte) : ∀ (d : List Byte),
    l.foldl IStream.putback ⟨d, false, false⟩ = ⟨l.reverse ++ d, false, false⟩ := by
  induction l with
  | nil => intro d; rfl
  | cons a l ih =>
    intro d
    show (l.foldl IStream.putback (IStream.putback ⟨d, false, false⟩ a)) = _
    rw [show IStream.putback ⟨d, false, false⟩ a = ⟨a :: d, false, false⟩ from rfl, ih]
    simp

theorem putbackAll_good (d : List Byte) (e : Bool) (ch : Byte) (pre : List Byte) :
    putbackAll ⟨d, e, false⟩ ch pre = ⟨pre ++ ch :: d, false, false⟩ := by
  show pre.reverse.foldl IStream.putback (IStream.putback ⟨d, e, false⟩ ch) = _
  rw [show IStream.putback ⟨d, e, false⟩ ch = ⟨ch :: d, false, false⟩ from rfl,
    foldl_putback_good]
  simp

theorem matchLoop_cons_cons (c : Byte) (cs : List Byte) (ch : Byte) (pre : List Byte)
    (p : Byte) (ps : List Byte) :
    matchLoop ⟨c :: cs, false, false⟩ ch pre (p :: ps) =
      if c = p then matchLoop ⟨cs, false, false⟩ c (pre ++ [p]) ps
      else (false, putbackAll ⟨cs, false, false⟩ c pre) := rfl

theorem matchLoop_mismatch (rest : List Byte) : ∀ (d : List Byte) (ch : Byte) (pre : List Byte),
    rest.isPrefixOf d = false → d.isPrefixOf rest = false →
    matchLoop ⟨d, false, false⟩ ch pre rest = (false, ⟨pre ++ d, false, false⟩) := by
  induction rest with
  | nil => intro d ch pre h1 _; simp [List.isPrefixOf] at h1
  | cons p ps ih =>
    intro d ch pre h1 h2
    match d with
    | [] => simp [List.isPrefixOf] at h2
    | c :: cs =>
      rw [matchLoop_cons_cons]
      by_cases hc : c = p
      · subst hc
        simp only [List.isPrefixOf] at h1 h2
        rw [beq_self_eq_true] at h1 h2
        rw [Bool.true_and] at h1 h2
        rw [if_pos rfl, ih cs c (pre ++ [c]) h1 h2]
        simp
      · rw [if_neg hc, putbackAll_good]

theorem wsCore_cons (c : Byte) (d : List Byte) :
    IStream.wsCore (c :: d) =
      if IStream.isWs c then IStream.wsCore d else ⟨c :: d, false, false⟩ := rfl

theorem wsCore_keep (c : Byte) (d : List Byte) (h : IStream.isWs c = false) :
    IStream.wsCore (c :: d) = ⟨c :: d, false, false⟩ := by
  rw [wsCore_cons, h]
  simp

theorem wsCore_drop (sp : List Byte) (h : sp.all IStream.isWs) (d : List Byte) :
    IStream.wsCore (sp ++ d) = IStream.wsCore d := by
  induction sp with
  | nil => rfl
  | cons a sp ih =>
    simp only [List.all_cons, Bool.and_eq_true] at h
    rw [List.cons_append, wsCore_cons, h.1]
    simpa using ih h.2

theorem ws_clear (d : List Byte) : IStream.ws ⟨d, false, false⟩ = IStream.wsCore d := rfl

/-- Claim C2 (amended): when a literal match fails on a true byte mismatch --
that is, after whitespace skip neither is the pattern a prefix of the
available data nor the data a proper prefix of the pattern, so the failure
is not caused by premature end of stream -- every consumed byte, including
the matched prefix, is pushed back, the cursor is restored to the
post-whitespace-skip position, and the call returns false.  (On premature
end of stream the call also fails, but the putbacks run on an already
failed stream and restore nothing, see the counterexample.) -/
theorem C2_match_restores_amended (pattern : List Byte) (input : IStream)
    (h1 : pattern.isPrefixOf (input.ws).data = false)
    (h2 : (input.ws).data.isPrefixOf pattern = false) :
    matchLit pattern input = (false, input.ws) := by
  unfold matchLit
  rcases hw : input.ws with ⟨d, e, f⟩
  rw [hw] at h1 h2
  simp only at h1 h2
  cases e with
  | false =>
    cases f with
    | false =>
      rw [matchLoop_mismatch pattern d 0 [] h1 h2]
      simp
    | true =>
      cases pattern with
      | nil => simp [List.isPrefixOf] at h1
      | cons p ps => rfl
  | true =>
    cases f <;>
    · cases pattern with
      | nil => simp [List.isPrefixOf] at h1
      | cons p ps => rfl

/-- Counterexample to claim C2 as stated: matching the pattern true against
a stream holding only the bytes tr fails by premature end of stream, and
the two consumed bytes are not pushed back -- the stream ends empty with
failbit set instead of being restored to the pre-call position. -/
theorem C2_match_restores_counterexample :
    matchLit (bytes "true") ⟨bytes "tr", false, false⟩ = (false, ⟨[], false, true⟩) ∧
    (⟨[], false, true⟩ : IStream) ≠ ⟨bytes "tr", false, false⟩ := by
  exact ⟨by decide, by decide⟩

/-- Witness for C2_match_restores_amended at a concrete input: the pattern
is an opening brace, the stream holds a space and the letter x. -/
theorem C2_match_restores_witness :
    (bytes "\x7b").isPrefixOf (IStream.ws ⟨bytes " x", false, false⟩).data = false ∧
    (IStream.ws ⟨bytes " x", false, false⟩).data.isPrefixOf (bytes "\x7b") = false ∧
    matchLit (bytes "\x7b") ⟨bytes " x", false, false⟩ = (false, IStream.ws ⟨bytes " x", false, false⟩) :=
  ⟨by decide, by decide,
    C2_match_restores_amended (bytes "\x7b") ⟨bytes " x", false, false⟩ (by decide) (by decide)⟩

/-- Claim C5: parsing the document [1,2,] succeeds in both strict and
lenient modes and yields the two-element array of the numbers 1 and 2,
consuming the whole document: after the trailing comma the element parse
fails quietly, the loop exits, and the closing bracket is matched. -/
theorem C5_array_trailing_comma :
    Array.parse true 20 ⟨bytes "[1,2,]", false, false⟩
      = (some [.number 1 0, .number 2 0], ⟨[], false, false⟩) ∧
    Array.parse false 20 ⟨bytes "[1,2,]", false, false⟩
      = (some [.number 1 0, .number 2 0], ⟨[], false, false⟩) := by
  exact ⟨by decide, by decide⟩

/-- Claim C6: with the strict flag false, parsing the bytes of the document
with a single-quoted key and a trailing comma (open brace, quote, a, quote,
colon, 1, comma, close brace) as an Object succeeds with the single pair a
mapped to 1; with the strict flag true the same input fails. -/
theorem C6_lenient_object :
    (Object.parse false 20 ⟨[lbraceB, squoteB, 97, squoteB, colonB, 49, commaB, rbraceB],
        false, false⟩).1 = some [([97], .number 1 0)] ∧
    (Object.parse true 20 ⟨[lbraceB, squoteB, 97, squoteB, colonB, 49, commaB, rbraceB],
        false, false⟩).1 = none := by
  exact ⟨by decide, by decide⟩

/-- Claim C8 (amended): when every variant parse fails, Value::parse returns
failure and leaves the type_ discriminator exactly as it was before the
call -- reset() frees owned payloads but never writes type_, and no failure
path assigns it.  A default-constructed Value therefore stays invalid, but
a Value populated by an earlier successful parse keeps its previous tag. -/
theorem C8_failure_keeps_tag_amended (strict : Bool) (fuel : Nat) (prev : VType)
    (s : IStream) (h : (Value.parseInto strict fuel prev s).1 = false) :
    (Value.parseInto strict fuel prev s).2.1 = prev := by
  rcases hp : Value.parse strict fuel s with ⟨r, s1⟩
  cases r with
  | none => simp [Value.parseInto, hp]
  | some v => simp [Value.parseInto, hp] at h

/-- Counterexample to claim C8 as stated: a Value first populated by
parsing true carries the BOOL_ tag; a following parse of the single byte @
fails in every variant, and the Value keeps the BOOL_ tag instead of being
left in the invalid state the claim requires. -/
theorem C8_failure_keeps_tag_counterexample :
    Value.parseInto true 5 .INVALID_ ⟨bytes "true", false, false⟩
      = (true, .BOOL_, ⟨[], false, false⟩) ∧
    (Value.parseInto true 5 .BOOL_ ⟨bytes "@", false, false⟩).1 = false ∧
    (Value.parseInto true 5 .BOOL_ ⟨bytes "@", false, false⟩).2.1 = .BOOL_ ∧
    VType.BOOL_ ≠ VType.INVALID_ := by
  exact ⟨by decide, by decide, by decide, by decide⟩

/-- Witness for C8_failure_keeps_tag_amended at a concrete input: a fresh
invalid Value and the unparsable single byte @. -/
theorem C8_failure_keeps_tag_witness :
    (Value.parseInto true 5 .INVALID_ ⟨bytes "@", false, false⟩).1 = false ∧
    (Value.parseInto true 5 .INVALID_ ⟨bytes "@", false, false⟩).2.1 = .INVALID_ :=
  ⟨by decide,
    C8_failure_keeps_tag_amended true 5 .INVALID_ ⟨bytes "@", false, false⟩ (by decide)⟩

/-- Counterexample to claim C1 as stated: the valid two-byte UTF-8 document
for the letter e-acute parses to the raw two-byte string; serializing that
string renders each byte (negative as a signed char) as a backslash-u hex
escape, and re-parsing the serialized text yields the ten literal escape
bytes, not the original two-byte string -- so the re-parsed tree differs
from the first parse.  The same happens for any string byte below 32 or
above 127 that has no two-character escape, for example the bell byte 7. -/
theorem C1_roundtrip_counterexample :
    (Value.parse true 9 ⟨[dquoteB, 195, 169, dquoteB], false, false⟩).1
      = some (.str [195, 169]) ∧
    (Value.parse true 9 ⟨serializeValue (.str [195, 169]), false, false⟩).1
      = some (.str (bytes "\\uffffffc3\\uffffffa9")) ∧
    JValue.str (bytes "\\uffffffc3\\uffffffa9") ≠ JValue.str [195, 169] := by
  exact ⟨by decide, by decide, by decide⟩

/-- Claim C3: Value::parse attempts the variants in the fixed order String,
Number, Boolean, Null, then Array, then Object; the Array attempt runs only
when peeking at the stream yields the opening bracket, while the Object
attempt is made unconditionally after every other alternative has failed.
The statement equates the source translation with specOrderValueParse, the
cascade written from the claim wording. -/
theorem C3_parse_priority_order (strict : Bool) (fuel : Nat) (s : IStream) :
    Value.parse strict fuel s = specOrderValueParse strict fuel s := by
  cases fuel with
  | zero => rfl
  | succ f =>
    show (parseStep strict (parseFns strict f)).val s = _
    simp only [parseStep, specOrderValueParse, attemptThen, stringAttempt, numberAttempt,
      boolAttempt, nullAttempt, arrayPeekAttempt, objectAttempt, Array.parse, Object.parse]
    rcases parse_string strict s [] with ⟨b1, sv, s1⟩
    cases b1 with
    | true => rfl
    | false =>
    simp only []
    rcases parse_number s1 with ⟨rn, s2⟩
    cases rn with
    | some n => rfl
    | none =>
    simp only []
    rcases parse_bool s2 with ⟨rb, s3⟩
    cases rb with
    | some b => rfl
    | none =>
    simp only []
    rcases parse_null strict s3 with ⟨bl, s4⟩
    cases bl with
    | true => rfl
    | false =>
    simp only []
    rcases IStream.peek s4 with ⟨r, s5⟩
    simp only []
    split_ifs with hr
    · rcases (parseFns strict f).arr s5 with ⟨ra, s6⟩
      cases ra <;> rfl
    · rfl

set_option maxRecDepth 40000 in
/-- Claim C7 (amended): JSON string serialization wraps the bytes in double
quotes and renders them in order; the eight special bytes become their
two-character backslash escapes; a byte below 32 outside those specials is
written as backslash-u followed by exactly six hex digits; a byte in the
printable range 32..127 outside the specials passes through raw; but a byte
of 128 or above is NOT passed through raw: its signed char value is
negative, so it is written as backslash-u followed by eight hex digits (the
32-bit two-complement value exceeds the six-digit field width). -/
theorem C7_string_escapes_amended :
    (∀ s, stream_string s = [dquoteB] ++ escBody s ++ [dquoteB]) ∧
    (∀ c s, escBody (c :: s) = escChar c ++ escBody s) ∧
    (escChar dquoteB = [backslashB, dquoteB] ∧ escChar backslashB = [backslashB, backslashB] ∧
      escChar slashB = [backslashB, slashB] ∧ escChar 8 = [backslashB, 98] ∧
      escChar 12 = [backslashB, 102] ∧ escChar 10 = [backslashB, 110] ∧
      escChar 13 = [backslashB, 114] ∧ escChar 9 = [backslashB, 116]) ∧
    (∀ c : Byte, c.val < 32 → ¬(c.val = 8 ∨ c.val = 12 ∨ c.val = 10 ∨ c.val = 13 ∨ c.val = 9) →
      escChar c = [backslashB, 117] ++ hexPad6 (c.val : Int) ∧ (hexPad6 (c.val : Int)).length = 6) ∧
    (∀ c : Byte, 32 ≤ c.val → c.val ≤ 127 → ¬(c = dquoteB ∨ c = backslashB ∨ c = slashB) →
      escChar c = [c]) ∧
    (∀ c : Byte, 128 ≤ c.val →
      escChar c = [backslashB, 117] ++ hexPad6 (signedVal c) ∧
        (hexPad6 (signedVal c)).length = 8) :=
  ⟨fun _ => rfl, fun _ _ => rfl, by decide, by decide, by decide, by decide⟩

/-- Counterexample to claim C7 as stated: byte 200 is not one of the eight
specials and not below 32 decimal, so per the claim it should pass through
raw; instead its signed char reading is negative and it serializes as a
backslash-u escape with eight hex digits. -/
theorem C7_string_escapes_counterexample :
    stream_string [200] = bytes "\"\\uffffffc8\"" ∧
    stream_string [200] ≠ [dquoteB, 200, dquoteB] :=
  ⟨by decide, by decide⟩

/-- Witness for C7_string_escapes_amended at the bell byte 7: exactly six
hex digits, giving the backslash-u000007 form the spec quotes. -/
theorem C7_string_escapes_witness :
    (7 : Byte).val < 32 ∧
    ¬((7 : Byte).val = 8 ∨ (7 : Byte).val = 12 ∨ (7 : Byte).val = 10 ∨
      (7 : Byte).val = 13 ∨ (7 : Byte).val = 9) ∧
    escChar 7 = [backslashB, 117] ++ hexPad6 ((7 : Byte).val : Int) ∧
    (hexPad6 (((7 : Byte).val : Int))).length = 6 ∧
    stream_string [7] = bytes "\"\\u000007\"" :=
  ⟨by decide, by decide,
    (C7_string_escapes_amended.2.2.2.1 7 (by decide) (by decide)).1,
    (C7_string_escapes_amended.2.2.2.1 7 (by decide) (by decide)).2,
    by decide⟩

theorem psLoop_nil (delim ch : Byte) (acc : List Byte) :
    psLoop delim [] ch acc =
      if ch = delim then ((false : Bool), acc, (⟨[], true, true⟩ : IStream))
      else if ch = backslashB then (false, acc ++ [backslashB], ⟨[], true, true⟩)
      else (false, acc ++ [ch], ⟨[], true, true⟩) := rfl

theorem psLoop_cons (delim c : Byte) (cs : List Byte) (ch : Byte) (acc : List Byte) :
    psLoop delim (c :: cs) ch acc =
      if c = delim then ((true : Bool), acc, (⟨cs, false, false⟩ : IStream))
      else if c = backslashB then
        match cs with
        | [] => (false, acc ++ [backslashB], ⟨[], true, true⟩)
        | c2 :: cs2 => psLoop delim cs2 c2 (acc ++ escDecode delim c2)
      else psLoop delim cs c (acc ++ [c]) := by
  cases cs <;> rfl

theorem psLoop_acc (delim : Byte) (n : Nat) : ∀ (d : List Byte), d.length ≤ n →
    ∀ (ch : Byte) (acc : List Byte),
    psLoop delim d ch acc =
      ((psLoop delim d ch []).1, acc ++ (psLoop delim d ch []).2.1,
        (psLoop delim d ch []).2.2) := by
  induction n with
  | zero =>
    intro d hd ch acc
    rw [List.length_eq_zero.mp (Nat.le_zero.mp hd)]
    rw [psLoop_nil, psLoop_nil]
    split_ifs <;> simp
  | succ n ih =>
    intro d hd ch acc
    match d with
    | [] =>
      rw [psLoop_nil, psLoop_nil]
      split_ifs <;> simp
    | c :: cs =>
      rw [psLoop_cons, psLoop_cons]
      by_cases hc : c = delim
      · rw [if_pos hc, if_pos hc]; simp
      · rw [if_neg hc, if_neg hc]
        by_cases hb : c = backslashB
        · rw [if_pos hb, if_pos hb]
          match cs with
          | [] => simp
          | c2 :: cs2 =>
            simp only []
            have hlen : cs2.length ≤ n := by
              simp only [List.length_cons] at hd; omega
            rw [ih cs2 hlen c2 (acc ++ escDecode delim c2),
              ih cs2 hlen c2 ([] ++ escDecode delim c2)]
            simp
        · rw [if_neg hb, if_neg hb]
          have hlen : cs.length ≤ n := by
            simp only [List.length_cons] at hd; omega
          rw [ih cs hlen c (acc ++ [c]), ih cs hlen c ([] ++ [c])]
          simp

/-- Claim C10: parse_string only ever appends to the output slot: for every
prior slot content, the call returns the same success flag and stream as a
call with an empty slot, and the final slot is the prior content followed
by exactly what the empty-slot call would produce; so the decoded text is
appended after pre-existing content, the slot is never cleared, and a
caller must pass an empty slot to obtain exactly the parsed text. -/
theorem C10_parse_string_appends (strict : Bool) (input : IStream) (acc : List Byte) :
    parse_string strict input acc =
      ((parse_string strict input []).1,
        acc ++ (parse_string strict input []).2.1,
        (parse_string strict input []).2.2) := by
  unfold parse_string
  rcases matchLit [dquoteB] input with ⟨b, s⟩
  cases b with
  | true =>
    rcases s with ⟨d, e, f⟩
    simp only []
    exact psLoop_acc dquoteB d.length d le_rfl 0 acc
  | false =>
    simp only []
    cases strict with
    | true => first | rfl | simp
    | false =>
      simp only [Bool.false_eq_true, if_false]
      rcases IStream.peek s with ⟨r, s1⟩
      try simp only []
      cases r with
      | none => first | rfl | simp
      | some c =>
        try simp only []
        by_cases hc : c = squoteB
        · rw [if_pos hc, if_pos hc]
          rcases IStream.get s1 0 with ⟨ch, s2⟩
          simp only []
          exact psLoop_acc squoteB s2.data.length s2.data le_rfl ch acc
        · rw [if_neg hc, if_neg hc]
          first | rfl | simp

theorem keyLt_nil_cons (y : Byte) (ys : List Byte) : keyLt [] (y :: ys) = true := rfl

theorem keyLt_cons_cons (x : Byte) (xs : List Byte) (y : Byte) (ys : List Byte) :
    keyLt (x :: xs) (y :: ys) = (decide (x < y) || (decide (x = y) && keyLt xs ys)) := rfl

theorem keyLt_eq_of_not_lt : ∀ (a b : List Byte), keyLt a b = false → keyLt b a = false → a = b := by
  intro a
  induction a with
  | nil =>
    intro b h1 _
    cases b with
    | nil => rfl
    | cons y ys => rw [keyLt_nil_cons] at h1; exact absurd h1 (by simp)
  | cons x xs ih =>
    intro b h1 h2
    cases b with
    | nil => rw [keyLt_nil_cons] at h2; exact absurd h2 (by simp)
    | cons y ys =>
      rw [keyLt_cons_cons] at h1 h2
      simp only [Bool.or_eq_false_iff, Bool.and_eq_false_iff, decide_eq_false_iff_not] at h1 h2
      have hxy : x = y := by
        have hv1 : ¬ x.val < y.val := fun hc => h1.1 (Fin.lt_def.mpr hc)
        have hv2 : ¬ y.val < x.val := fun hc => h2.1 (Fin.lt_def.mpr hc)
        exact Fin.ext (by omega)
      subst hxy
      rcases h1.2 with h | h
      · exact absurd rfl h
      · rcases h2.2 with h2e | h2l
        · exact absurd rfl h2e
        · rw [ih ys h h2l]

theorem keysSortedB_cons (a : List Byte) (va : JValue) (l : List (List Byte × JValue)) :
    keysSortedB ((a, va) :: l) = (lbKeyB a l && keysSortedB l) := by
  cases l with
  | nil => rfl
  | cons p t => rcases p with ⟨k1, v1⟩; rfl

theorem mapInsert_cons (k : List Byte) (v : JValue) (k1 : List Byte) (v1 : JValue)
    (t : List (List Byte × JValue)) :
    mapInsert ((k1, v1) :: t) k v =
      if keyLt k k1 then (k, v) :: (k1, v1) :: t
      else if keyLt k1 k then (k1, v1) :: mapInsert t k v
      else (k, v) :: t := rfl

theorem mapInsert_sorted (k : List Byte) (v : JValue) :
    ∀ (m : List (List Byte × JValue)), keysSortedB m = true →
      keysSortedB (mapInsert m k v) = true ∧
      ∀ b, lbKeyB b m = true → keyLt b k = true → lbKeyB b (mapInsert m k v) = true := by
  intro m
  induction m with
  | nil =>
    intro _
    refine ⟨rfl, ?_⟩
    intro b _ hbk
    simpa [mapInsert, lbKeyB] using hbk
  | cons p t ih =>
    rcases p with ⟨k1, v1⟩
    intro hs
    rw [keysSortedB_cons, Bool.and_eq_true] at hs
    obtain ⟨iha, ihb⟩ := ih hs.2
    rw [mapInsert_cons]
    by_cases h1 : keyLt k k1 = true
    · rw [if_pos h1]
      refine ⟨?_, ?_⟩
      · rw [keysSortedB_cons, keysSortedB_cons,
          show lbKeyB k ((k1, v1) :: t) = keyLt k k1 from rfl]
        simp [h1, hs.1, hs.2]
      · intro b _ hbk
        rw [show lbKeyB b ((k, v) :: (k1, v1) :: t) = keyLt b k from rfl]
        exact hbk
    · rw [if_neg h1]
      by_cases h2 : keyLt k1 k = true
      · rw [if_pos h2]
        refine ⟨?_, ?_⟩
        · rw [keysSortedB_cons]
          simp [iha, ihb k1 hs.1 h2]
        · intro b hb _
          rw [show lbKeyB b ((k1, v1) :: mapInsert t k v) = keyLt b k1 from rfl]
          rw [show lbKeyB b ((k1, v1) :: t) = keyLt b k1 from rfl] at hb
          exact hb
      · have hk : k = k1 :=
          keyLt_eq_of_not_lt k k1 (Bool.not_eq_true _ ▸ h1) (Bool.not_eq_true _ ▸ h2)
        subst hk
        rw [if_neg h2]
        refine ⟨?_, ?_⟩
        · rw [keysSortedB_cons]
          simp [hs.1, hs.2]
        · intro b hb hbk
          rw [show lbKeyB b ((k, v) :: t) = keyLt b k from rfl]
          exact hbk

theorem buildMap_sorted_from (pairs : List (List Byte × JValue)) :
    ∀ (acc : List (List Byte × JValue)), keysSortedB acc = true →
      keysSortedB (pairs.foldl (fun a kv => mapInsert a kv.1 kv.2) acc) = true := by
  induction pairs with
  | nil => intro acc h; exact h
  | cons p t ih =>
    intro acc h
    exact ih (mapInsert acc p.1 p.2) ((mapInsert_sorted p.1 p.2 acc h).1)

theorem objLoop_sorted (strict : Bool) : ∀ (fuel : Nat) (s : IStream)
    (acc res : List (List Byte × JValue)) (s1 : IStream),
    Object.loop strict fuel s acc = (some res, s1) → keysSortedB acc = true →
    keysSortedB res = true := by
  intro fuel
  induction fuel with
  | zero =>
    intro s acc res s1 h ha
    rw [show Object.loop strict 0 s acc = (some acc, s) from rfl] at h
    simp only [Prod.mk.injEq, Option.some.injEq] at h
    rw [← h.1]
    exact ha
  | succ f ih =>
    intro s acc res s1 h ha
    rw [show Object.loop strict (f + 1) s acc = (parseStep strict (parseFns strict f)).objLp s acc from rfl] at h
    revert h
    show (match parse_string strict s [] with
      | (false, _, s1) =>
        if strict then ((none : Option (List (List Byte × JValue))), s1)
        else
          match s1.peek with
          | (rk, s2) => if rk = some rbraceB then (some acc, s2) else (none, s2)
      | (true, key, s1) =>
        match matchLit [colonB] s1 with
        | (false, s2) => (none, s2)
        | (true, s2) =>
          match (parseFns strict f).val s2 with
          | (none, s3) => (some acc, s3)
          | (some v, s3) =>
            match matchLit [commaB] s3 with
            | (true, s4) => (parseFns strict f).objLp s4 (mapInsert acc key v)
            | (false, s4) => (some (mapInsert acc key v), s4)) = (some res, s1) → _
    rcases parse_string strict s [] with ⟨b, key, t1⟩
    cases b with
    | false =>
      simp only []
      cases strict with
      | true => intro h; exact absurd h (by simp)
      | false =>
        simp only [Bool.false_eq_true, if_false]
        rcases IStream.peek t1 with ⟨rk, t2⟩
        simp only []
        by_cases hrk : rk = some rbraceB
        · rw [if_pos hrk]
          intro h
          simp only [Prod.mk.injEq, Option.some.injEq] at h
          rw [← h.1]
          exact ha
        · rw [if_neg hrk]
          intro h; exact absurd h (by simp)
    | true =>
      simp only []
      rcases matchLit [colonB] t1 with ⟨bc, t2⟩
      cases bc with
      | false => intro h; exact absurd h (by simp)
      | true =>
        simp only []
        rcases (parseFns strict f).val t2 with ⟨rv, t3⟩
        cases rv with
        | none =>
          intro h
          simp only [Prod.mk.injEq, Option.some.injEq] at h
          rw [← h.1]
          exact ha
        | some v =>
          simp only []
          rcases matchLit [commaB] t3 with ⟨bm, t4⟩
          cases bm with
          | true =>
            intro h
            exact ih t4 (mapInsert acc key v) res s1 h
              ((mapInsert_sorted key v acc ha).1)
          | false =>
            intro h
            simp only [Prod.mk.injEq, Option.some.injEq] at h
            rw [← h.1]
            exact (mapInsert_sorted key v acc ha).1

theorem objectParse_sorted (strict : Bool) (fuel : Nat) (s : IStream)
    (kvs : List (List Byte × JValue)) (s1 : IStream)
    (h : Object.parse strict fuel s = (some kvs, s1)) : keysSortedB kvs = true := by
  cases fuel with
  | zero => cases h
  | succ f =>
    rw [show Object.parse strict (f + 1) s = (parseStep strict (parseFns strict f)).obj s from rfl] at h
    revert h
    show (match matchLit [lbraceB] s with
      | (false, s1) => ((none : Option (List (List Byte × JValue))), s1)
      | (true, s1) =>
        match matchLit [rbraceB] s1 with
        | (true, s2) => (some [], s2)
        | (false, s2) =>
          match (parseFns strict f).objLp s2 [] with
          | (none, s3) => (none, s3)
          | (some kvs, s3) =>
            match matchLit [rbraceB] s3 with
            | (true, s4) => (some kvs, s4)
            | (false, s4) => (none, s4)) = (some kvs, s1) → _
    rcases matchLit [lbraceB] s with ⟨b1, t1⟩
    cases b1 with
    | false => intro h; exact absurd h (by simp)
    | true =>
      simp only []
      rcases matchLit [rbraceB] t1 with ⟨b2, t2⟩
      cases b2 with
      | true =>
        intro h
        simp only [Prod.mk.injEq, Option.some.injEq] at h
        rw [← h.1]
        rfl
      | false =>
        simp only []
        rcases hl : (parseFns strict f).objLp t2 [] with ⟨rl, t3⟩
        cases rl with
        | none => intro h; exact absurd h (by simp)
        | some res =>
          simp only []
          rcases matchLit [rbraceB] t3 with ⟨b3, t4⟩
          cases b3 with
          | false => intro h; exact absurd h (by simp)
          | true =>
            intro h
            simp only [Prod.mk.injEq, Option.some.injEq] at h
            rw [← h.1]
            exact objLoop_sorted strict f t2 [] res t3 hl rfl

/-- Claim C4: for every insertion sequence -- the pairs in the order the
parsed input presented them -- the std::map model built by repeated
value_map_[key] = v stores holds its pairs with strictly ascending keys in
the natural string order; Object::parse output therefore always carries
strictly ascending unique keys; and the JSON serializer renders the pairs
in exactly that stored order (quoted key, colon, space, value, joined by
comma and space). -/
theorem C4_object_keys_sorted :
    (∀ pairs : List (List Byte × JValue), keysSortedB (buildMap pairs) = true) ∧
    (∀ strict fuel s kvs s1, Object.parse strict fuel s = (some kvs, s1) →
      keysSortedB kvs = true) ∧
    (∀ (k : List Byte) (v : JValue) (p : List Byte × JValue)
      (t : List (List Byte × JValue)),
      serializeObjBody ((k, v) :: p :: t) =
        stream_string k ++ bytes ": " ++ serializeValue v ++ bytes ", "
          ++ serializeObjBody (p :: t)) ∧
    (∀ (k : List Byte) (v : JValue),
      serializeObjBody [(k, v)] = stream_string k ++ bytes ": " ++ serializeValue v) :=
  ⟨fun pairs => buildMap_sorted_from pairs [] rfl,
    fun strict fuel s kvs s1 h => objectParse_sorted strict fuel s kvs s1 h,
    fun _ _ _ _ => rfl, fun _ _ => rfl⟩

/-- Witness for C4_object_keys_sorted at a concrete input: the document with
keys b then a parses to a map whose rendered key order is a then b. -/
theorem C4_object_keys_sorted_witness :
    Object.parse true 20 ⟨bytes "\x7b\"b\":2,\"a\":1\x7d", false, false⟩
      = (some [([97], .number 1 0), ([98], .number 2 0)], ⟨[], false, false⟩) ∧
    keysSortedB [([97], .number 1 0), ([98], .number 2 0)] = true :=
  ⟨by decide,
    C4_object_keys_sorted.2.1 true 20 ⟨bytes "\x7b\"b\":2,\"a\":1\x7d", false, false⟩
      [([97], .number 1 0), ([98], .number 2 0)] ⟨[], false, false⟩ (by decide)⟩

/-- Claim C9: in both XML dialects the declaration header block is emitted
exactly once, prepended in front of the root tag only, with a non-empty
caller-supplied header replacing the default; the root attribute block
(defaulting to the jsonx namespace and schema-location block, empty for
jxml, and replaced by a non-empty caller-supplied string) is attached only
to the root tag; and the recursive child renderings always pass the empty
attribute string, so no child tag ever carries the header or the root
attribute block. -/
theorem C9_xml_root_header :
    (∀ (fmt : Format) (header attrib : List Byte) (o : List (List Byte × JValue)),
      Object.xml fmt header attrib o =
        (if header.isEmpty then defheader fmt else header) ++
          tag fmt 0 [] (.obj o) (if attrib.isEmpty then defrootattrib fmt else attrib)) ∧
    (∀ (fmt : Format) (header attrib : List Byte) (vs : List JValue),
      Array.xml fmt header attrib vs =
        (if header.isEmpty then defheader fmt else header) ++
          tag fmt 0 [] (.arr vs) (if attrib.isEmpty then defrootattrib fmt else attrib)) ∧
    (∀ (fmt : Format) (d : Nat) (name : List Byte) (kvs : List (List Byte × JValue))
      (attr : List Byte),
      tag fmt d name (.obj kvs) attr =
        List.replicate d 9 ++ open_tag fmt 111 name attr ++ [10]
          ++ tagKVs fmt (d + 1) kvs
          ++ List.replicate d 9 ++ close_tag fmt 111 ++ [10]) ∧
    (∀ (fmt : Format) (d : Nat) (name : List Byte) (vs : List JValue)
      (attr : List Byte),
      tag fmt d name (.arr vs) attr =
        List.replicate d 9 ++ open_tag fmt 97 name attr ++ [10]
          ++ tagList fmt (d + 1) vs
          ++ List.replicate d 9 ++ close_tag fmt 97 ++ [10]) ∧
    (∀ (fmt : Format) (d : Nat) (v : JValue) (t2 : List JValue),
      tagList fmt d (v :: t2) = tag fmt d [] v [] ++ tagList fmt d t2) ∧
    (∀ (fmt : Format) (d : Nat) (k : List Byte) (v : JValue)
      (t2 : List (List Byte × JValue)),
      tagKVs fmt d ((k, v) :: t2) = tag fmt d k v [] ++ tagKVs fmt d t2) :=
  ⟨fun _ _ _ _ => rfl, fun _ _ _ _ => rfl, fun _ _ _ _ _ => rfl, fun _ _ _ _ _ => rfl,
    fun _ _ _ _ => rfl, fun _ _ _ _ _ => rfl⟩

/-! Byte classification facts, each settled over all 256 bytes. -/

set_option maxRecDepth 40000 in
theorem digit_byte_props : ∀ c : Byte, isDigitB c = true →
    IStream.isWs c = false ∧ c ≠ dquoteB ∧ c ≠ squoteB ∧ c ≠ minusB ∧ c ≠ plusB ∧
      c ≠ dotB ∧ c ≠ expLowB ∧ c ≠ expUpB := by decide

set_option maxRecDepth 40000 in
theorem goodStr_raw_escChar : ∀ c : Byte, goodStrB c = true → c ≠ dquoteB →
    c ≠ backslashB → c ≠ slashB → c ≠ 8 → c ≠ 12 → c ≠ 10 → c ≠ 13 → c ≠ 9 →
    escChar c = [c] := by decide

theorem digitB_isDigit : ∀ d : Nat, d < 10 → isDigitB (digitB d) = true := by
  intro d hd
  interval_cases d <;> decide

theorem digitB_val (d : Nat) (hd : d < 10) : (digitB d).val = 48 + d := by
  show (if d < 10 then 48 + d else 87 + d) % 256 = 48 + d
  rw [if_pos hd]
  exact Nat.mod_eq_of_lt (by omega)

theorem digitsAux_all (fuel : Nat) : ∀ n : Nat, (digitsAux 10 fuel n).all isDigitB = true := by
  induction fuel with
  | zero => intro n; rfl
  | succ f ih =>
    intro n
    unfold digitsAux
    by_cases hn : n = 0
    · rw [if_pos hn]; rfl
    · rw [if_neg hn, List.all_append, ih (n / 10)]
      simp [digitB_isDigit (n % 10) (Nat.mod_lt _ (by omega))]

theorem natDigits_all (n : Nat) : (natDigits n).all isDigitB = true := by
  unfold natDigits
  by_cases hn : n = 0
  · rw [if_pos hn]; decide
  · rw [if_neg hn]; exact digitsAux_all n n

theorem natDigits_ne_nil (n : Nat) : natDigits n ≠ [] := by
  unfold natDigits
  by_cases hn : n = 0
  · rw [if_pos hn]; simp
  · rw [if_neg hn]
    obtain ⟨m, rfl⟩ : ∃ m, n = m + 1 := ⟨n - 1, by omega⟩
    unfold digitsAux
    rw [if_neg hn]
    simp

theorem digits_fold (fuel : Nat) : ∀ (n a : Nat), n ≤ fuel →
    (digitsAux 10 fuel n).foldl (fun x c => 10 * x + (c.val - 48)) a
      = a * 10 ^ (digitsAux 10 fuel n).length + n := by
  induction fuel with
  | zero =>
    intro n a hn
    have : n = 0 := Nat.le_zero.mp hn
    subst this
    simp [digitsAux]
  | succ f ih =>
    intro n a hn
    unfold digitsAux
    by_cases hz : n = 0
    · rw [if_pos hz, hz]; simp
    · rw [if_neg hz]
      have hdiv : n / 10 ≤ f := by
        have h1 : n / 10 < n := Nat.div_lt_self (by omega) (by omega)
        omega
      rw [List.foldl_append, ih (n / 10) a hdiv]
      simp only [List.foldl_cons, List.foldl_nil, List.length_append, List.length_cons,
        List.length_nil]
      rw [digitB_val (n % 10) (Nat.mod_lt _ (by omega))]
      have hmod : 48 + n % 10 - 48 = n % 10 := by omega
      rw [hmod]
      calc 10 * (a * 10 ^ (digitsAux 10 f (n / 10)).length + n / 10) + n % 10
          = a * (10 ^ (digitsAux 10 f (n / 10)).length * 10)
              + (10 * (n / 10) + n % 10) := by ring
        _ = a * 10 ^ ((digitsAux 10 f (n / 10)).length + 0 + 1) + n := by
              rw [Nat.div_add_mod, pow_succ]

theorem natDigits_fold (n : Nat) :
    (natDigits n).foldl (fun x c => 10 * x + (c.val - 48)) 0 = n := by
  unfold natDigits
  by_cases hn : n = 0
  · rw [if_pos hn, hn]; decide
  · rw [if_neg hn]
    rw [digits_fold n n 0 le_rfl]
    simp

theorem scanDigits_nil (a n : Nat) : scanDigits [] a n = (a, n, []) := rfl

theorem scanDigits_cons (c : Byte) (cs : List Byte) (a n : Nat) :
    scanDigits (c :: cs) a n =
      if isDigitB c then scanDigits cs (10 * a + (c.val - 48)) (n + 1)
      else (a, n, c :: cs) := rfl

theorem scanDigits_run : ∀ (ds : List Byte), ds.all isDigitB = true →
    ∀ (rest : List Byte), (∀ c, rest.head? = some c → isDigitB c = false) →
    ∀ (a n : Nat),
    scanDigits (ds ++ rest) a n =
      (ds.foldl (fun x c => 10 * x + (c.val - 48)) a, n + ds.length, rest) := by
  intro ds
  induction ds with
  | nil =>
    intro _ rest hrest a n
    cases rest with
    | nil => simp [scanDigits_nil]
    | cons c t =>
      rw [List.nil_append, scanDigits_cons, if_neg]
      · simp
      · rw [hrest c rfl]; simp
  | cons d ds ih =>
    intro hall rest hrest a n
    rw [List.all_cons, Bool.and_eq_true] at hall
    rw [List.cons_append, scanDigits_cons, if_pos hall.1,
      ih hall.2 rest hrest (10 * a + (d.val - 48)) (n + 1)]
    simp only [List.foldl_cons, List.length_cons]
    have harith : n + 1 + ds.length = n + (ds.length + 1) := by omega
    rw [harith]

theorem restOKB_cons (c : Byte) (t : List Byte) :
    restOKB (c :: t) = (c = commaB || c = rbrackB || c = rbraceB) := rfl

theorem restOK_head (c : Byte) (t : List Byte) (h : restOKB (c :: t) = true) :
    isDigitB c = false ∧ c ≠ dotB ∧ c ≠ expLowB ∧ c ≠ expUpB ∧ c ≠ minusB ∧
      c ≠ plusB ∧ IStream.isWs c = false ∧ c ≠ dquoteB ∧ c ≠ squoteB ∧
      c ≠ lbrackB ∧ c ≠ lbraceB := by
  rw [restOKB_cons] at h
  simp only [Bool.or_eq_true, decide_eq_true_eq] at h
  rcases h with (h | h) | h <;> subst h <;> decide

theorem intDigits_nonneg (m : Int) (h : 0 ≤ m) : intDigits m = natDigits m.natAbs := by
  unfold intDigits
  rw [if_neg (by omega)]
  rfl

theorem intDigits_neg (m : Int) (h : m < 0) : intDigits m = minusB :: natDigits m.natAbs := by
  unfold intDigits
  rw [if_pos h]
  rfl

theorem natDigits_len_pos (n : Nat) : (natDigits n).length ≠ 0 := by
  intro hc
  exact natDigits_ne_nil n (List.length_eq_zero.mp hc)

theorem scanExp_minus (ds : List Byte) :
    scanExp (expLowB :: minusB :: ds) =
      (match scanDigits ds 0 0 with
       | (a, n, rest) =>
         if n = 0 then ((0 : Int), expLowB :: minusB :: ds) else (-(a : Int), rest)) := rfl

theorem scanExp_digits (c2 : Byte) (t2 : List Byte) (h1 : c2 ≠ minusB) (h2 : c2 ≠ plusB) :
    scanExp (expLowB :: c2 :: t2) =
      (match scanDigits (c2 :: t2) 0 0 with
       | (a, n, rest) =>
         if n = 0 then ((0 : Int), expLowB :: c2 :: t2) else ((a : Int), rest)) := by
  have h : scanExp (expLowB :: c2 :: t2) =
      (if c2 = minusB then
        (match scanDigits t2 0 0 with
         | (a, n, rest) =>
           if n = 0 then ((0 : Int), expLowB :: c2 :: t2) else (-(a : Int), rest))
      else if c2 = plusB then
        (match scanDigits t2 0 0 with
         | (a, n, rest) =>
           if n = 0 then ((0 : Int), expLowB :: c2 :: t2) else ((a : Int), rest))
      else
        (match scanDigits (c2 :: t2) 0 0 with
         | (a, n, rest) =>
           if n = 0 then ((0 : Int), expLowB :: c2 :: t2) else ((a : Int), rest))) := rfl
  rw [h, if_neg h1, if_neg h2]

theorem scanExp_noexp (c : Byte) (t : List Byte) (h1 : c ≠ expLowB) (h2 : c ≠ expUpB) :
    scanExp (c :: t) = (0, c :: t) := by
  have h : scanExp (c :: t) =
      (if c = expLowB || c = expUpB then scanExp (c :: t) else (0, c :: t)) := by
    by_cases hc : (c = expLowB || c = expUpB : Bool)
    · rw [if_pos hc]
    · rw [if_neg hc]
      show scanExp (c :: t) = (0, c :: t)
      simp only [Bool.or_eq_true, decide_eq_true_eq, not_or] at hc
      unfold scanExp
      simp only []
      rw [if_neg (by simp [hc.1, hc.2])]
  rw [h, if_neg (by simp [h1, h2])]

theorem natDigits_head_not_sign (n : Nat) :
    ∃ c2 t2, natDigits n = c2 :: t2 ∧ isDigitB c2 = true := by
  rcases hd : natDigits n with _ | ⟨c2, t2⟩
  · exact absurd hd (natDigits_ne_nil n)
  · refine ⟨c2, t2, rfl, ?_⟩
    have := natDigits_all n
    rw [hd, List.all_cons, Bool.and_eq_true] at this
    exact this.1

theorem scanExp_run (e : Int) (rest : List Byte)
    (hrest : ∀ c, rest.head? = some c → isDigitB c = false) :
    scanExp (expLowB :: (intDigits e ++ rest)) = (e, rest) := by
  by_cases hneg : e < 0
  · rw [intDigits_neg e hneg]
    simp only [List.cons_append]
    rw [scanExp_minus]
    rw [scanDigits_run (natDigits e.natAbs) (natDigits_all e.natAbs) rest hrest 0 0]
    simp only []
    rw [if_neg (by simpa using natDigits_len_pos e.natAbs), natDigits_fold]
    have h2 : -(e.natAbs : Int) = e := by omega
    rw [h2]
  · rw [intDigits_nonneg e (by omega)]
    obtain ⟨c2, t2, hd, hdig⟩ := natDigits_head_not_sign e.natAbs
    have hprops := digit_byte_props c2 hdig
    rw [hd]
    simp only [List.cons_append]
    rw [scanExp_digits c2 (t2 ++ rest) hprops.2.2.2.1 hprops.2.2.2.2.1]
    rw [show c2 :: (t2 ++ rest) = (c2 :: t2) ++ rest from rfl, ← hd]
    rw [scanDigits_run (natDigits e.natAbs) (natDigits_all e.natAbs) rest hrest 0 0]
    simp only []
    rw [if_neg (by simpa using natDigits_len_pos e.natAbs), natDigits_fold]
    have h2 : (e.natAbs : Int) = e := by omega
    rw [h2]

theorem scanMantissa_run (sgn : Int) (n : Nat) (e : Int)
    (rest : List Byte) (hrest : restOKB rest = true) :
    scanMantissa sgn (natDigits n ++ ((if e = 0 then [] else expLowB :: intDigits e) ++ rest))
      = some ((sgn * (n : Int), e), rest) := by
  have hrest_head : ∀ c, rest.head? = some c → isDigitB c = false := by
    intro c hc
    cases rest with
    | nil => cases hc
    | cons r t =>
      simp only [List.head?_cons, Option.some.injEq] at hc
      exact hc ▸ (restOK_head r t hrest).1
  have hsuffix_head : ∀ c,
      ((if e = 0 then [] else expLowB :: intDigits e) ++ rest).head? = some c →
        isDigitB c = false := by
    by_cases hez : e = 0
    · rw [if_pos hez, List.nil_append]
      exact hrest_head
    · rw [if_neg hez]
      intro c hc
      simp only [List.cons_append, List.head?_cons, Option.some.injEq] at hc
      rw [← hc]
      decide
  unfold scanMantissa
  rw [scanDigits_run (natDigits n) (natDigits_all n) _ hsuffix_head 0 0]
  simp only []
  rw [natDigits_fold]
  by_cases hez : e = 0
  · subst hez
    rw [if_pos rfl, List.nil_append]
    cases rest with
    | nil =>
      simp only []
      rw [if_neg (by simpa using natDigits_len_pos n)]
    | cons r t =>
      simp only []
      have hprops := restOK_head r t hrest
      rw [if_neg hprops.2.1, if_neg (by simpa using natDigits_len_pos n),
        scanExp_noexp r t hprops.2.2.1 hprops.2.2.2.1]
  · rw [if_neg hez]
    simp only [List.cons_append]
    rw [if_neg (by decide : ¬ expLowB = dotB), if_neg (by simpa using natDigits_len_pos n),
      scanExp_run e rest hrest_head]

theorem scanNumber_minus (t : List Byte) : scanNumber (minusB :: t) = scanMantissa (-1) t := rfl

theorem scanNumber_other (c : Byte) (t : List Byte) (h1 : c ≠ minusB) (h2 : c ≠ plusB) :
    scanNumber (c :: t) = scanMantissa 1 (c :: t) := by
  unfold scanNumber
  simp only []
  rw [if_neg h1, if_neg h2]

theorem scanNumber_print (m e : Int) (rest : List Byte) (hrest : restOKB rest = true) :
    scanNumber (printNumber m e ++ rest) = some ((m, e), rest) := by
  unfold printNumber
  by_cases hm : m < 0
  · rw [intDigits_neg m hm]
    simp only [List.cons_append, List.append_assoc]
    rw [scanNumber_minus, scanMantissa_run (-1) m.natAbs e rest hrest]
    have h2 : (-1 : Int) * (m.natAbs : Int) = m := by omega
    rw [h2]
  · rw [intDigits_nonneg m (by omega)]
    obtain ⟨c2, t2, hd, hdig⟩ := natDigits_head_not_sign m.natAbs
    have hprops := digit_byte_props c2 hdig
    rw [hd]
    simp only [List.cons_append, List.append_assoc]
    rw [scanNumber_other c2 _ hprops.2.2.2.1 hprops.2.2.2.2.1]
    rw [show c2 :: (t2 ++ ((if e = 0 then [] else expLowB :: intDigits e) ++ rest))
        = (c2 :: t2) ++ ((if e = 0 then [] else expLowB :: intDigits e) ++ rest) from rfl,
      ← hd]
    rw [scanMantissa_run 1 m.natAbs e rest hrest]
    have h2 : (1 : Int) * (m.natAbs : Int) = m := by omega
    rw [h2]

set_option maxRecDepth 40000 in
theorem printNumber_head (m e : Int) :
    ∃ c t, printNumber m e = c :: t ∧ IStream.isWs c = false ∧ c ≠ dquoteB ∧
      c ≠ squoteB ∧ c ≠ lbrackB ∧ c ≠ rbrackB ∧ c ≠ rbraceB ∧ c ≠ lbraceB ∧
      c ≠ 116 ∧ c ≠ 102 ∧ c ≠ 110 ∧ c ≠ commaB := by
  unfold printNumber
  by_cases hm : m < 0
  · rw [intDigits_neg m hm]
    exact ⟨minusB, _, rfl, by decide, by decide, by decide, by decide, by decide,
      by decide, by decide, by decide, by decide, by decide, by decide⟩
  · rw [intDigits_nonneg m (by omega)]
    obtain ⟨c2, t2, hd, hdig⟩ := natDigits_head_not_sign m.natAbs
    rw [hd]
    revert hdig
    have : ∀ c : Byte, isDigitB c = true → IStream.isWs c = false ∧ c ≠ dquoteB ∧
        c ≠ squoteB ∧ c ≠ lbrackB ∧ c ≠ rbrackB ∧ c ≠ rbraceB ∧ c ≠ lbraceB ∧
        c ≠ 116 ∧ c ≠ 102 ∧ c ≠ 110 ∧ c ≠ commaB := by decide
    intro hdig
    exact ⟨c2, _, rfl, this c2 hdig⟩

theorem parse_number_print (m e : Int) (rest : List Byte) (hrest : restOKB rest = true)
    (sp : List Byte) (hsp : sp.all IStream.isWs = true) :
    parse_number ⟨sp ++ (printNumber m e ++ rest), false, false⟩
      = (some (m, e), ⟨rest, rest.isEmpty, false⟩) := by
  obtain ⟨c, t, hct, hws, _⟩ := printNumber_head m e
  unfold parse_number
  rw [ws_clear, wsCore_drop sp hsp, hct, List.cons_append,
    wsCore_keep c (t ++ rest) hws, ← List.cons_append, ← hct]
  simp only []
  rw [scanNumber_print m e rest hrest]
  cases rest with
  | nil => rfl
  | cons r t2 => rfl

theorem matchLoop_run : ∀ (rest d : List Byte) (ch : Byte) (pre : List Byte),
    matchLoop ⟨rest ++ d, false, false⟩ ch pre rest = (true, ⟨d, false, false⟩) := by
  intro rest
  induction rest with
  | nil => intro d ch pre; rfl
  | cons p ps ih =>
    intro d ch pre
    rw [List.cons_append, matchLoop_cons_cons, if_pos rfl]
    exact ih d p (pre ++ [p])

theorem matchLit_run (p : Byte) (ps : List Byte) (hp : IStream.isWs p = false)
    (sp : List Byte) (hsp : sp.all IStream.isWs = true) (d : List Byte) :
    matchLit (p :: ps) ⟨sp ++ ((p :: ps) ++ d), false, false⟩ = (true, ⟨d, false, false⟩) := by
  unfold matchLit
  rw [ws_clear, wsCore_drop sp hsp, List.cons_append, wsCore_keep p (ps ++ d) hp,
    ← List.cons_append]
  exact matchLoop_run (p :: ps) d 0 []

theorem matchLit_head_mismatch (p : Byte) (ps : List Byte) (c : Byte) (cs : List Byte)
    (hc : IStream.isWs c = false) (hne : c ≠ p)
    (sp : List Byte) (hsp : sp.all IStream.isWs = true) :
    matchLit (p :: ps) ⟨sp ++ (c :: cs), false, false⟩ = (false, ⟨c :: cs, false, false⟩) := by
  unfold matchLit
  rw [ws_clear, wsCore_drop sp hsp, wsCore_keep c cs hc, matchLoop_cons_cons, if_neg hne,
    putbackAll_good]
  simp

theorem psLoop_esc (x : Byte) (rest2 : List Byte) (ch : Byte) (acc : List Byte) :
    psLoop dquoteB (backslashB :: x :: rest2) ch acc
      = psLoop dquoteB rest2 x (acc ++ escDecode dquoteB x) := by
  rw [psLoop_cons, if_neg (by decide), if_pos rfl]

theorem psLoop_escChar_step (c : Byte) (hc : goodStrB c = true) (d : List Byte)
    (ch : Byte) (acc : List Byte) :
    ∃ ch2, psLoop dquoteB (escChar c ++ d) ch acc = psLoop dquoteB d ch2 (acc ++ [c]) := by
  by_cases h1 : c = dquoteB
  · subst h1
    refine ⟨dquoteB, ?_⟩
    rw [show escChar dquoteB ++ d = backslashB :: dquoteB :: d from rfl, psLoop_esc]
    rfl
  by_cases h2 : c = backslashB
  · subst h2
    refine ⟨backslashB, ?_⟩
    rw [show escChar backslashB ++ d = backslashB :: backslashB :: d from rfl, psLoop_esc]
    rfl
  by_cases h3 : c = slashB
  · subst h3
    refine ⟨slashB, ?_⟩
    rw [show escChar slashB ++ d = backslashB :: slashB :: d from rfl, psLoop_esc]
    rfl
  by_cases h4 : c = 8
  · subst h4
    refine ⟨98, ?_⟩
    rw [show escChar 8 ++ d = backslashB :: (98 : Byte) :: d from rfl, psLoop_esc]
    rfl
  by_cases h5 : c = 12
  · subst h5
    refine ⟨102, ?_⟩
    rw [show escChar 12 ++ d = backslashB :: (102 : Byte) :: d from rfl, psLoop_esc]
    rfl
  by_cases h6 : c = 10
  · subst h6
    refine ⟨110, ?_⟩
    rw [show escChar 10 ++ d = backslashB :: (110 : Byte) :: d from rfl, psLoop_esc]
    rfl
  by_cases h7 : c = 13
  · subst h7
    refine ⟨114, ?_⟩
    rw [show escChar 13 ++ d = backslashB :: (114 : Byte) :: d from rfl, psLoop_esc]
    rfl
  by_cases h8 : c = 9
  · subst h8
    refine ⟨116, ?_⟩
    rw [show escChar 9 ++ d = backslashB :: (116 : Byte) :: d from rfl, psLoop_esc]
    rfl
  refine ⟨c, ?_⟩
  rw [goodStr_raw_escChar c hc h1 h2 h3 h4 h5 h6 h7 h8, List.singleton_append,
    psLoop_cons, if_neg h1, if_neg h2]

theorem psLoop_decode : ∀ (s : List Byte), s.all goodStrB = true →
    ∀ (rest : List Byte) (ch : Byte) (acc : List Byte),
    psLoop dquoteB (escBody s ++ (dquoteB :: rest)) ch acc
      = (true, acc ++ s, ⟨rest, false, false⟩) := by
  intro s
  induction s with
  | nil =>
    intro _ rest ch acc
    show psLoop dquoteB (dquoteB :: rest) ch acc = _
    rw [psLoop_cons, if_pos rfl]
    simp
  | cons c cs ih =>
    intro hall rest ch acc
    rw [List.all_cons, Bool.and_eq_true] at hall
    show psLoop dquoteB ((escChar c ++ escBody cs) ++ (dquoteB :: rest)) ch acc = _
    rw [List.append_assoc]
    obtain ⟨ch2, hstep⟩ := psLoop_escChar_step c hall.1 (escBody cs ++ (dquoteB :: rest)) ch acc
    rw [hstep, ih hall.2 rest ch2 (acc ++ [c])]
    simp

theorem parse_string_run (strict : Bool) (s k rest : List Byte)
    (hs : s.all IStream.isWs = true) (hk : k.all goodStrB = true) (acc : List Byte) :
    parse_string strict ⟨s ++ (stream_string k ++ rest), false, false⟩ acc
      = (true, acc ++ k, ⟨rest, false, false⟩) := by
  unfold parse_string
  rw [show stream_string k ++ rest = [dquoteB] ++ ((escBody k ++ [dquoteB]) ++ rest) from by
    simp [stream_string]]
  rw [matchLit_run dquoteB [] (by decide) s hs ((escBody k ++ [dquoteB]) ++ rest)]
  simp only [List.append_assoc, List.singleton_append]
  exact psLoop_decode k hk rest 0 acc

theorem matchLit_run0 (p : Byte) (ps : List Byte) (hp : IStream.isWs p = false) (d : List Byte) :
    matchLit (p :: ps) ⟨(p :: ps) ++ d, false, false⟩ = (true, ⟨d, false, false⟩) := by
  have h := matchLit_run p ps hp [] rfl d
  simpa using h

theorem matchLit_mismatch0 (p : Byte) (ps : List Byte) (c : Byte) (cs : List Byte)
    (hc : IStream.isWs c = false) (hne : c ≠ p) :
    matchLit (p :: ps) ⟨c :: cs, false, false⟩ = (false, ⟨c :: cs, false, false⟩) := by
  have h := matchLit_head_mismatch p ps c cs hc hne [] rfl
  simpa using h

theorem peek_cons (c : Byte) (cs : List Byte) :
    IStream.peek ⟨c :: cs, false, false⟩ = (some c, ⟨c :: cs, false, false⟩) := rfl

theorem parse_string_fail (strict : Bool) (c : Byte) (cs : List Byte)
    (hws : IStream.isWs c = false) (h1 : c ≠ dquoteB) (h2 : c ≠ squoteB)
    (sp : List Byte) (hsp : sp.all IStream.isWs = true) (acc : List Byte) :
    parse_string strict ⟨sp ++ (c :: cs), false, false⟩ acc
      = (false, acc, ⟨c :: cs, false, false⟩) := by
  unfold parse_string
  rw [matchLit_head_mismatch dquoteB [] c cs hws h1 sp hsp]
  simp only []
  cases strict with
  | true => rfl
  | false =>
    simp only [Bool.false_eq_true, if_false, peek_cons]
    rw [if_neg h2]

theorem parse_number_fail (c : Byte) (cs : List Byte) (hws : IStream.isWs c = false)
    (hdig : isDigitB c = false) (hm : c ≠ minusB) (hp : c ≠ plusB) (hdot : c ≠ dotB) :
    parse_number ⟨c :: cs, false, false⟩ = (none, ⟨c :: cs, false, false⟩) := by
  have hsd : scanDigits (c :: cs) 0 0 = (0, 0, c :: cs) := by
    unfold scanDigits
    simp [hdig]
  unfold parse_number
  rw [ws_clear, wsCore_keep c cs hws]
  simp only []
  rw [scanNumber_other c cs hm hp]
  unfold scanMantissa
  rw [hsd]
  simp only []
  rw [if_neg hdot]
  simp

theorem parse_bool_fail (c : Byte) (cs : List Byte) (hws : IStream.isWs c = false)
    (h1 : c ≠ 116) (h2 : c ≠ 102) :
    parse_bool ⟨c :: cs, false, false⟩ = (none, ⟨c :: cs, false, false⟩) := by
  unfold parse_bool
  rw [show bytes "true" = 116 :: [114, 117, 101] from rfl,
    matchLit_mismatch0 116 [114, 117, 101] c cs hws h1]
  simp only []
  rw [show bytes "false" = 102 :: [97, 108, 115, 101] from rfl,
    matchLit_mismatch0 102 [97, 108, 115, 101] c cs hws h2]

theorem parse_null_fail (strict : Bool) (c : Byte) (cs : List Byte)
    (hws : IStream.isWs c = false) (h1 : c ≠ 110) (h2 : c ≠ commaB) :
    parse_null strict ⟨c :: cs, false, false⟩ = (false, ⟨c :: cs, false, false⟩) := by
  unfold parse_null
  rw [show bytes "null" = 110 :: [117, 108, 108] from rfl,
    matchLit_mismatch0 110 [117, 108, 108] c cs hws h1]
  simp only []
  cases strict with
  | true => rfl
  | false =>
    simp only [Bool.false_eq_true, if_false, peek_cons]
    simp [h2]

theorem parseFns_obj_fail (strict : Bool) (f : Nat) (c : Byte) (cs : List Byte)
    (hws : IStream.isWs c = false) (h1 : c ≠ lbraceB) :
    (parseFns strict f).obj ⟨c :: cs, false, false⟩ = (none, ⟨c :: cs, false, false⟩) := by
  cases f with
  | zero => rfl
  | succ f =>
    show (parseStep strict (parseFns strict f)).obj _ = _
    simp only [parseStep]
    rw [matchLit_mismatch0 lbraceB [] c cs hws h1]

theorem valueParse_fail (strict : Bool) (f : Nat) (c : Byte) (cs : List Byte)
    (hws : IStream.isWs c = false) (hdq : c ≠ dquoteB) (hsq : c ≠ squoteB)
    (hdig : isDigitB c = false) (hm : c ≠ minusB) (hp : c ≠ plusB) (hdot : c ≠ dotB)
    (ht : c ≠ 116) (hf : c ≠ 102) (hn : c ≠ 110) (hcm : c ≠ commaB)
    (hlb : c ≠ lbrackB) (hlbr : c ≠ lbraceB)
    (sp : List Byte) (hsp : sp.all IStream.isWs = true) :
    Value.parse strict (f + 1) ⟨sp ++ (c :: cs), false, false⟩
      = (none, ⟨c :: cs, false, false⟩) := by
  show (parseStep strict (parseFns strict f)).val _ = _
  simp only [parseStep]
  rw [parse_string_fail strict c cs hws hdq hsq sp hsp []]
  simp only []
  rw [parse_number_fail c cs hws hdig hm hp hdot]
  simp only []
  rw [parse_bool_fail c cs hws ht hf]
  simp only []
  rw [parse_null_fail strict c cs hws hn hcm]
  simp only []
  rw [peek_cons]
  simp only []
  rw [if_neg (by simp [hlb])]
  rw [parseFns_obj_fail strict f c cs hws hlbr]

theorem parseFns_val_fail (strict : Bool) (g : Nat) (hg : 1 ≤ g) (c : Byte) (cs : List Byte)
    (hws : IStream.isWs c = false) (hdq : c ≠ dquoteB) (hsq : c ≠ squoteB)
    (hdig : isDigitB c = false) (hm : c ≠ minusB) (hp : c ≠ plusB) (hdot : c ≠ dotB)
    (ht : c ≠ 116) (hf : c ≠ 102) (hn : c ≠ 110) (hcm : c ≠ commaB)
    (hlb : c ≠ lbrackB) (hlbr : c ≠ lbraceB)
    (sp : List Byte) (hsp : sp.all IStream.isWs = true) :
    Value.parse strict g ⟨sp ++ (c :: cs), false, false⟩
      = (none, ⟨c :: cs, false, false⟩) := by
  cases g with
  | zero => cases hg
  | succ f =>
    exact valueParse_fail strict f c cs hws hdq hsq hdig hm hp hdot ht hf hn hcm hlb hlbr sp hsp

theorem keyLt_trans : ∀ (a b c : List Byte),
    keyLt a b = true → keyLt b c = true → keyLt a c = true := by
  intro a
  induction a with
  | nil =>
    intro b c h1 h2
    cases b with
    | nil => cases h1
    | cons y ys =>
      cases c with
      | nil => cases h2
      | cons z zs => exact keyLt_nil_cons z zs
  | cons x xs ih =>
    intro b c h1 h2
    cases b with
    | nil => cases h1
    | cons y ys =>
      cases c with
      | nil => cases h2
      | cons z zs =>
        rw [keyLt_cons_cons] at h1 h2 ⊢
        simp only [Bool.or_eq_true, Bool.and_eq_true, decide_eq_true_eq] at h1 h2 ⊢
        rcases h1 with h1 | ⟨h1e, h1r⟩
        · rcases h2 with h2 | ⟨h2e, h2r⟩
          · exact Or.inl (lt_trans h1 h2)
          · exact Or.inl (h2e ▸ h1)
        · rcases h2 with h2 | ⟨h2e, h2r⟩
          · exact Or.inl (h1e ▸ h2)
          · exact Or.inr ⟨h1e.trans h2e, ih ys zs h1r h2r⟩

theorem keyLt_asymm : ∀ (a b : List Byte), keyLt a b = true → keyLt b a = false := by
  intro a
  induction a with
  | nil =>
    intro b h
    cases b with
    | nil => cases h
    | cons y ys => rfl
  | cons x xs ih =>
    intro b h
    cases b with
    | nil => cases h
    | cons y ys =>
      rw [keyLt_cons_cons] at h ⊢
      simp only [Bool.or_eq_true, Bool.and_eq_true, decide_eq_true_eq] at h
      simp only [Bool.or_eq_false_iff, Bool.and_eq_false_iff, decide_eq_false_iff_not,
        decide_eq_true_eq]
      rcases h with h | ⟨he, hr⟩
      · exact ⟨not_lt_of_lt h, Or.inl (ne_of_gt h)⟩
      · exact ⟨by rw [he]; exact lt_irrefl y, Or.inr (ih ys hr)⟩

theorem mapInsert_big : ∀ (acc : List (List Byte × JValue)) (k : List Byte) (v : JValue),
    (∀ p ∈ acc, keyLt p.1 k = true) → mapInsert acc k v = acc ++ [(k, v)] := by
  intro acc
  induction acc with
  | nil => intro k v _; rfl
  | cons p t ih =>
    intro k v h
    rcases p with ⟨k1, v1⟩
    have h1 : keyLt k1 k = true := h (k1, v1) (List.mem_cons_self _ _)
    rw [mapInsert_cons, if_neg (by simp [keyLt_asymm k1 k h1]), if_pos h1,
      ih k v (fun p hp => h p (List.mem_cons_of_mem _ hp))]
    rfl

theorem sorted_append_head : ∀ (acc : List (List Byte × JValue)) (k : List Byte) (v : JValue)
    (t : List (List Byte × JValue)), keysSortedB (acc ++ (k, v) :: t) = true →
    ∀ p ∈ acc, keyLt p.1 k = true := by
  intro acc
  induction acc with
  | nil => intro k v t _ p hp; cases hp
  | cons q acc ih =>
    intro k v t hs p hp
    rcases q with ⟨k0, v0⟩
    rw [List.cons_append, keysSortedB_cons, Bool.and_eq_true] at hs
    rcases List.mem_cons.mp hp with rfl | hp2
    · cases acc with
      | nil =>
        have h0 := hs.1
        rw [List.nil_append] at h0
        exact h0
      | cons q2 acc2 =>
        rcases q2 with ⟨k1, v1⟩
        have h01 : keyLt k0 k1 = true := hs.1
        have h1k : keyLt k1 k = true := ih k v t hs.2 (k1, v1) (List.mem_cons_self _ _)
        exact keyLt_trans k0 k1 k h01 h1k
    · exact ih k v t hs.2 p hp2

theorem sorted_append_tail : ∀ (acc t : List (List Byte × JValue)),
    keysSortedB (acc ++ t) = true → keysSortedB t = true := by
  intro acc
  induction acc with
  | nil => intro t h; exact h
  | cons q acc ih =>
    intro t h
    rcases q with ⟨k0, v0⟩
    rw [List.cons_append, keysSortedB_cons, Bool.and_eq_true] at h
    exact ih t h.2

theorem eofAfter_cons (v : JValue) (c : Byte) (l : List Byte) :
    eofAfter v (c :: l) = false := by
  cases v <;> rfl

theorem valueParse_null (strict : Bool) (f : Nat) (sp : List Byte)
    (hsp : sp.all IStream.isWs = true) (rest : List Byte) :
    Value.parse strict (f + 1) ⟨sp ++ (serializeValue JValue.null ++ rest), false, false⟩
      = (some JValue.null, ⟨rest, false, false⟩) := by
  show (parseStep strict (parseFns strict f)).val _ = _
  simp only [parseStep]
  rw [show serializeValue JValue.null ++ rest = 110 :: ([117, 108, 108] ++ rest) from rfl]
  rw [parse_string_fail strict 110 ([117, 108, 108] ++ rest) (by decide) (by decide) (by decide)
    sp hsp []]
  simp only []
  rw [parse_number_fail 110 _ (by decide) (by decide) (by decide) (by decide) (by decide)]
  simp only []
  rw [parse_bool_fail 110 _ (by decide) (by decide) (by decide)]
  simp only []
  unfold parse_null
  rw [show bytes "null" = (110 : Byte) :: [117, 108, 108] from rfl]
  rw [show (110 : Byte) :: ([117, 108, 108] ++ rest)
      = ((110 : Byte) :: [117, 108, 108]) ++ rest from rfl]
  rw [matchLit_run0 110 [117, 108, 108] (by decide) rest]

theorem valueParse_true (strict : Bool) (f : Nat) (sp : List Byte)
    (hsp : sp.all IStream.isWs = true) (rest : List Byte) :
    Value.parse strict (f + 1) ⟨sp ++ (serializeValue (JValue.bool true) ++ rest), false, false⟩
      = (some (JValue.bool true), ⟨rest, false, false⟩) := by
  show (parseStep strict (parseFns strict f)).val _ = _
  simp only [parseStep]
  rw [show serializeValue (JValue.bool true) ++ rest = 116 :: ([114, 117, 101] ++ rest) from rfl]
  rw [parse_string_fail strict 116 ([114, 117, 101] ++ rest) (by decide) (by decide) (by decide)
    sp hsp []]
  simp only []
  rw [parse_number_fail 116 _ (by decide) (by decide) (by decide) (by decide) (by decide)]
  simp only []
  unfold parse_bool
  rw [show bytes "true" = (116 : Byte) :: [114, 117, 101] from rfl]
  rw [show (116 : Byte) :: ([114, 117, 101] ++ rest)
      = ((116 : Byte) :: [114, 117, 101]) ++ rest from rfl]
  rw [matchLit_run0 116 [114, 117, 101] (by decide) rest]

theorem valueParse_false (strict : Bool) (f : Nat) (sp : List Byte)
    (hsp : sp.all IStream.isWs = true) (rest : List Byte) :
    Value.parse strict (f + 1) ⟨sp ++ (serializeValue (JValue.bool false) ++ rest), false, false⟩
      = (some (JValue.bool false), ⟨rest, false, false⟩) := by
  show (parseStep strict (parseFns strict f)).val _ = _
  simp only [parseStep]
  rw [show serializeValue (JValue.bool false) ++ rest
      = 102 :: ([97, 108, 115, 101] ++ rest) from rfl]
  rw [parse_string_fail strict 102 ([97, 108, 115, 101] ++ rest) (by decide) (by decide)
    (by decide) sp hsp []]
  simp only []
  rw [parse_number_fail 102 _ (by decide) (by decide) (by decide) (by decide) (by decide)]
  simp only []
  unfold parse_bool
  rw [show bytes "true" = (116 : Byte) :: [114, 117, 101] from rfl]
  rw [matchLit_mismatch0 116 [114, 117, 101] 102 _ (by decide) (by decide)]
  simp only []
  rw [show bytes "false" = (102 : Byte) :: [97, 108, 115, 101] from rfl]
  rw [show (102 : Byte) :: ([97, 108, 115, 101] ++ rest)
      = ((102 : Byte) :: [97, 108, 115, 101]) ++ rest from rfl]
  rw [matchLit_run0 102 [97, 108, 115, 101] (by decide) rest]

theorem valueParse_number (strict : Bool) (f : Nat) (m e : Int) (sp : List Byte)
    (hsp : sp.all IStream.isWs = true) (rest : List Byte) (hrest : restOKB rest = true) :
    Value.parse strict (f + 1)
        ⟨sp ++ (serializeValue (JValue.number m e) ++ rest), false, false⟩
      = (some (JValue.number m e), ⟨rest, rest.isEmpty, false⟩) := by
  obtain ⟨c, t, hct, hws2, hdq, hsq, _⟩ := printNumber_head m e
  show (parseStep strict (parseFns strict f)).val _ = _
  simp only [parseStep]
  rw [show serializeValue (JValue.number m e) = printNumber m e from rfl, hct,
    List.cons_append,
    parse_string_fail strict c (t ++ rest) hws2 hdq hsq sp hsp []]
  simp only []
  rw [← List.cons_append, ← hct]
  have hpn := parse_number_print m e rest hrest [] rfl
  rw [List.nil_append] at hpn
  rw [hpn]

theorem valueParse_str (strict : Bool) (f : Nat) (k : List Byte) (hk : k.all goodStrB = true)
    (sp : List Byte) (hsp : sp.all IStream.isWs = true) (rest : List Byte) :
    Value.parse strict (f + 1) ⟨sp ++ (serializeValue (JValue.str k) ++ rest), false, false⟩
      = (some (JValue.str k), ⟨rest, false, false⟩) := by
  show (parseStep strict (parseFns strict f)).val _ = _
  simp only [parseStep]
  rw [show serializeValue (JValue.str k) = stream_string k from rfl]
  rw [parse_string_run strict sp k rest hsp hk []]
  simp only [List.nil_append]

theorem serializeObjBody_head (k : List Byte) (v : JValue) (t : List (List Byte × JValue)) :
    ∃ bt, serializeObjBody ((k, v) :: t) = dquoteB :: bt := by
  cases t with
  | nil =>
    refine ⟨(escBody k ++ [dquoteB]) ++ (bytes ": " ++ serializeValue v), ?_⟩
    show stream_string k ++ bytes ": " ++ serializeValue v = _
    simp [stream_string, List.append_assoc]
  | cons p t2 =>
    refine ⟨(escBody k ++ [dquoteB]) ++ (bytes ": " ++ serializeValue v ++ bytes ", "
      ++ serializeObjBody (p :: t2)), ?_⟩
    show stream_string k ++ bytes ": " ++ serializeValue v ++ bytes ", "
        ++ serializeObjBody (p :: t2) = _
    simp [stream_string, List.append_assoc]

theorem fuelFor_pos (v : JValue) : 1 ≤ fuelFor v := by
  cases v <;> simp [fuelFor] <;> omega

theorem restOK_comma (l : List Byte) : restOKB (commaB :: l) = true := rfl

theorem restOK_rbrack (l : List Byte) : restOKB (rbrackB :: l) = true := rfl

theorem restOK_rbrace (l : List Byte) : restOKB (rbraceB :: l) = true := rfl

theorem fuelForList_pos (vs : List JValue) : 1 ≤ fuelForList vs := by
  cases vs <;> simp [fuelForList] <;> omega

theorem fuelForKVs_pos (kvs : List (List Byte × JValue)) : 1 ≤ fuelForKVs kvs := by
  cases kvs with
  | nil => simp [fuelForKVs]
  | cons p t => rcases p with ⟨k, v⟩; simp [fuelForKVs]; omega

theorem valParse_succ (strict : Bool) (f : Nat) (s : IStream) :
    Value.parse strict (f + 1) s =
      (match parse_string strict s [] with
       | (true, sv, s1) => (some (.str sv), s1)
       | (false, _, s1) =>
         match parse_number s1 with
         | (some n, s2) => (some (.number n.1 n.2), s2)
         | (none, s2) =>
           match parse_bool s2 with
           | (some b, s3) => (some (.bool b), s3)
           | (none, s3) =>
             match parse_null strict s3 with
             | (true, s4) => (some .null, s4)
             | (false, s4) =>
               match s4.peek with
               | (rk, s5) =>
                 if rk = some lbrackB then
                   match Array.parse strict f s5 with
                   | (some vs, s6) => (some (.arr vs), s6)
                   | (none, s6) =>
                     match Object.parse strict f s6 with
                     | (some kvs, s7) => (some (.obj kvs), s7)
                     | (none, s7) => (none, s7)
                 else
                   match Object.parse strict f s5 with
                   | (some kvs, s7) => (some (.obj kvs), s7)
                   | (none, s7) => (none, s7)) := rfl

theorem arrParse_succ (strict : Bool) (f : Nat) (s : IStream) :
    Array.parse strict (f + 1) s =
      (match matchLit [lbrackB] s with
       | (false, s1) => (none, s1)
       | (true, s1) =>
         match Array.loop strict f s1 [] with
         | (vs, s2) =>
           match matchLit [rbrackB] s2 with
           | (true, s3) => (some vs, s3)
           | (false, s3) => (none, s3)) := rfl

theorem arrLoop_succ (strict : Bool) (f : Nat) (s : IStream) (acc : List JValue) :
    Array.loop strict (f + 1) s acc =
      (match Value.parse strict f s with
       | (none, s1) => (acc, s1)
       | (some v, s1) =>
         match matchLit [commaB] s1 with
         | (true, s2) => Array.loop strict f s2 (acc ++ [v])
         | (false, s2) => (acc ++ [v], s2)) := rfl

theorem objParse_succ (strict : Bool) (f : Nat) (s : IStream) :
    Object.parse strict (f + 1) s =
      (match matchLit [lbraceB] s with
       | (false, s1) => (none, s1)
       | (true, s1) =>
         match matchLit [rbraceB] s1 with
         | (true, s2) => (some [], s2)
         | (false, s2) =>
           match Object.loop strict f s2 [] with
           | (none, s3) => (none, s3)
           | (some kvs, s3) =>
             match matchLit [rbraceB] s3 with
             | (true, s4) => (some kvs, s4)
             | (false, s4) => (none, s4)) := rfl

theorem objLoop_succ (strict : Bool) (f : Nat) (s : IStream)
    (acc : List (List Byte × JValue)) :
    Object.loop strict (f + 1) s acc =
      (match parse_string strict s [] with
       | (false, _, s1) =>
         if strict then (none, s1)
         else
           match s1.peek with
           | (rk, s2) => if rk = some rbraceB then (some acc, s2) else (none, s2)
       | (true, key, s1) =>
         match matchLit [colonB] s1 with
         | (false, s2) => (none, s2)
         | (true, s2) =>
           match Value.parse strict f s2 with
           | (none, s3) => (some acc, s3)
           | (some v, s3) =>
             match matchLit [commaB] s3 with
             | (true, s4) => Object.loop strict f s4 (mapInsert acc key v)
             | (false, s4) => (some (mapInsert acc key v), s4)) := rfl

theorem roundtrip_master (strict : Bool) : ∀ (fuel : Nat),
    (∀ v : JValue, objSortedB v = true → goodStringsB v = true → fuelFor v ≤ fuel →
      ∀ (sp : List Byte), sp.all IStream.isWs = true →
      ∀ (rest : List Byte), restOKB rest = true →
      Value.parse strict fuel ⟨sp ++ (serializeValue v ++ rest), false, false⟩
        = (some v, ⟨rest, eofAfter v rest, false⟩)) ∧
    (∀ vs : List JValue, objSortedList vs = true → goodStringsList vs = true →
      fuelForList vs + 2 ≤ fuel → ∀ (rest : List Byte), restOKB rest = true →
      Array.parse strict fuel
          ⟨lbrackB :: (serializeArrBody vs ++ (rbrackB :: rest)), false, false⟩
        = (some vs, ⟨rest, false, false⟩)) ∧
    (∀ vs : List JValue, objSortedList vs = true → goodStringsList vs = true →
      fuelForList vs + 1 ≤ fuel → ∀ (sp : List Byte), sp.all IStream.isWs = true →
      ∀ (rest2 : List Byte) (acc : List JValue),
      Array.loop strict fuel
          ⟨sp ++ (serializeArrBody vs ++ (rbrackB :: rest2)), false, false⟩ acc
        = (acc ++ vs, ⟨rbrackB :: rest2, false, false⟩)) ∧
    (∀ kvs : List (List Byte × JValue), keysSortedB kvs = true → objSortedKVs kvs = true →
      goodStringsKVs kvs = true → fuelForKVs kvs + 2 ≤ fuel →
      ∀ (rest : List Byte), restOKB rest = true →
      Object.parse strict fuel
          ⟨lbraceB :: (serializeObjBody kvs ++ (rbraceB :: rest)), false, false⟩
        = (some kvs, ⟨rest, false, false⟩)) ∧
    (∀ (k : List Byte) (v : JValue) (t acc : List (List Byte × JValue)),
      keysSortedB (acc ++ (k, v) :: t) = true → objSortedKVs ((k, v) :: t) = true →
      goodStringsKVs ((k, v) :: t) = true → fuelForKVs ((k, v) :: t) + 1 ≤ fuel →
      ∀ (sp : List Byte), sp.all IStream.isWs = true → ∀ (rest2 : List Byte),
      Object.loop strict fuel
          ⟨sp ++ (serializeObjBody ((k, v) :: t) ++ (rbraceB :: rest2)), false, false⟩ acc
        = (some (acc ++ (k, v) :: t), ⟨rbraceB :: rest2, false, false⟩)) := by
  intro fuel
  induction fuel with
  | zero =>
    refine ⟨?_, ?_, ?_, ?_, ?_⟩
    · intro v _ _ hfuel sp _ rest _
      exact absurd hfuel (by have := fuelFor_pos v; omega)
    · intro vs _ _ hfl rest _
      exact absurd hfl (by omega)
    · intro vs _ _ hfl sp _ rest2 acc
      exact absurd hfl (by omega)
    · intro kvs _ _ _ hfl rest _
      exact absurd hfl (by omega)
    · intro k v t acc _ _ _ hfl sp _ rest2
      exact absurd hfl (by omega)
  | succ fuel ih =>
    obtain ⟨ihval, iharr, iharrLp, ihobj, ihobjLp⟩ := ih
    refine ⟨?_, ?_, ?_, ?_, ?_⟩
    · -- Value::parse
      intro v hsort hgood hfuel sp hsp rest hrest
      cases v with
      | null =>
        rw [show eofAfter JValue.null rest = false from rfl]
        exact valueParse_null strict fuel sp hsp rest
      | bool b =>
        cases b with
        | true =>
          rw [show eofAfter (JValue.bool true) rest = false from rfl]
          exact valueParse_true strict fuel sp hsp rest
        | false =>
          rw [show eofAfter (JValue.bool false) rest = false from rfl]
          exact valueParse_false strict fuel sp hsp rest
      | number m e =>
        rw [show eofAfter (JValue.number m e) rest = rest.isEmpty from rfl]
        exact valueParse_number strict fuel m e sp hsp rest hrest
      | str s =>
        simp only [goodStringsB] at hgood
        rw [show eofAfter (JValue.str s) rest = false from rfl]
        exact valueParse_str strict fuel s hgood sp hsp rest
      | arr vs =>
        simp only [objSortedB] at hsort
        simp only [goodStringsB] at hgood
        simp only [fuelFor] at hfuel
        rw [valParse_succ]
        rw [show serializeValue (JValue.arr vs) ++ rest
            = lbrackB :: (serializeArrBody vs ++ (rbrackB :: rest)) from by
          simp [serializeValue]]
        rw [parse_string_fail strict lbrackB _ (by decide) (by decide) (by decide) sp hsp []]
        simp only []
        rw [parse_number_fail lbrackB _ (by decide) (by decide) (by decide) (by decide)
          (by decide)]
        simp only []
        rw [parse_bool_fail lbrackB _ (by decide) (by decide) (by decide)]
        simp only []
        rw [parse_null_fail strict lbrackB _ (by decide) (by decide) (by decide)]
        simp only []
        rw [peek_cons]
        simp only []
        first
          | rw [if_pos (rfl : (some lbrackB : Option Byte) = some lbrackB)]
          | simp only [if_true]
        have harr := iharr vs hsort hgood (by omega) rest hrest
        rw [harr]
        rfl
      | obj kvs =>
        simp only [objSortedB, Bool.and_eq_true] at hsort
        simp only [goodStringsB] at hgood
        simp only [fuelFor] at hfuel
        rw [valParse_succ]
        rw [show serializeValue (JValue.obj kvs) ++ rest
            = lbraceB :: (serializeObjBody kvs ++ (rbraceB :: rest)) from by
          simp [serializeValue]]
        rw [parse_string_fail strict lbraceB _ (by decide) (by decide) (by decide) sp hsp []]
        simp only []
        rw [parse_number_fail lbraceB _ (by decide) (by decide) (by decide) (by decide)
          (by decide)]
        simp only []
        rw [parse_bool_fail lbraceB _ (by decide) (by decide) (by decide)]
        simp only []
        rw [parse_null_fail strict lbraceB _ (by decide) (by decide) (by decide)]
        simp only []
        rw [peek_cons]
        simp only []
        rw [if_neg (by decide : ¬ (some lbraceB : Option Byte) = some lbrackB)]
        have hobj := ihobj kvs hsort.1 hsort.2 hgood (by omega) rest hrest
        rw [hobj]
        rfl
    · -- Array::parse
      intro vs hs hg hfl rest hrest
      rw [arrParse_succ]
      rw [show lbrackB :: (serializeArrBody vs ++ (rbrackB :: rest))
          = (lbrackB :: []) ++ (serializeArrBody vs ++ (rbrackB :: rest)) from rfl,
        matchLit_run0 lbrackB [] (by decide) _]
      simp only []
      have hlp := iharrLp vs hs hg (by omega) [] rfl rest []
      rw [List.nil_append] at hlp
      rw [hlp]
      simp only []
      rw [show (rbrackB :: rest : List Byte) = (rbrackB :: []) ++ rest from rfl,
        matchLit_run0 rbrackB [] (by decide) rest]
      simp only [List.nil_append]
    · -- the element loop of Array::parse
      intro vs hs hg hfl sp hsp rest2 acc
      rw [arrLoop_succ]
      cases vs with
      | nil =>
        simp only [fuelForList] at hfl
        rw [show serializeArrBody ([] : List JValue) ++ (rbrackB :: rest2)
            = rbrackB :: rest2 from rfl]
        rw [parseFns_val_fail strict fuel (by omega) rbrackB rest2 (by decide) (by decide)
          (by decide) (by decide) (by decide) (by decide) (by decide) (by decide) (by decide)
          (by decide) (by decide) (by decide) (by decide) sp hsp]
        simp
      | cons v t =>
        simp only [objSortedList, Bool.and_eq_true] at hs
        simp only [goodStringsList, Bool.and_eq_true] at hg
        cases t with
        | nil =>
          simp only [fuelForList] at hfl
          rw [show serializeArrBody [v] = serializeValue v from by simp [serializeArrBody]]
          have hv := ihval v hs.1 hg.1 (by omega) sp hsp (rbrackB :: rest2)
            (restOK_rbrack rest2)
          rw [hv, eofAfter_cons]
          simp only []
          rw [matchLit_mismatch0 commaB [] rbrackB rest2 (by decide) (by decide)]
        | cons w t2 =>
          simp only [fuelForList] at hfl
          have hvp := fuelFor_pos v
          rw [show serializeArrBody (v :: w :: t2) ++ (rbrackB :: rest2)
              = serializeValue v
                  ++ (commaB :: 32 :: (serializeArrBody (w :: t2) ++ (rbrackB :: rest2)))
              from by
            rw [show serializeArrBody (v :: w :: t2)
                = serializeValue v ++ bytes ", " ++ serializeArrBody (w :: t2) from by
              simp [serializeArrBody]]
            rw [show bytes ", " = [commaB, 32] from rfl]
            simp [List.append_assoc]]
          have hv := ihval v hs.1 hg.1 (by omega) sp hsp
            (commaB :: 32 :: (serializeArrBody (w :: t2) ++ (rbrackB :: rest2)))
            (restOK_comma _)
          rw [hv, eofAfter_cons]
          simp only []
          rw [show (commaB :: 32 :: (serializeArrBody (w :: t2) ++ (rbrackB :: rest2))
                : List Byte)
              = (commaB :: []) ++ (32 :: (serializeArrBody (w :: t2) ++ (rbrackB :: rest2)))
              from rfl,
            matchLit_run0 commaB [] (by decide) _]
          simp only []
          have hlp := iharrLp (w :: t2) hs.2 hg.2 (by simp only [fuelForList]; omega)
            [32] (by decide) rest2 (acc ++ [v])
          rw [show (32 : Byte) :: (serializeArrBody (w :: t2) ++ (rbrackB :: rest2))
              = [32] ++ (serializeArrBody (w :: t2) ++ (rbrackB :: rest2)) from rfl, hlp]
          simp
    · -- Object::parse
      intro kvs hks hsk hg hfl rest hrest
      rw [objParse_succ]
      rw [show lbraceB :: (serializeObjBody kvs ++ (rbraceB :: rest))
          = (lbraceB :: []) ++ (serializeObjBody kvs ++ (rbraceB :: rest)) from rfl,
        matchLit_run0 lbraceB [] (by decide) _]
      simp only []
      cases kvs with
      | nil =>
        rw [show serializeObjBody ([] : List (List Byte × JValue)) ++ (rbraceB :: rest)
            = rbraceB :: rest from rfl]
        rw [show (rbraceB :: rest : List Byte) = (rbraceB :: []) ++ rest from rfl,
          matchLit_run0 rbraceB [] (by decide) rest]
      | cons p t =>
        rcases p with ⟨k, v⟩
        obtain ⟨bt, hbt⟩ := serializeObjBody_head k v t
        rw [hbt, List.cons_append,
          matchLit_mismatch0 rbraceB [] dquoteB _ (by decide) (by decide)]
        simp only []
        rw [← List.cons_append, ← hbt]
        have hlp := ihobjLp k v t [] (by simpa using hks) hsk hg (by omega) [] rfl rest
        rw [List.nil_append] at hlp
        rw [hlp]
        simp only []
        rw [show (rbraceB :: rest : List Byte) = (rbraceB :: []) ++ rest from rfl,
          matchLit_run0 rbraceB [] (by decide) rest]
        simp only [List.nil_append]
    · -- the pair loop of Object::parse
      intro k v t acc hsort hsk hg hfl sp hsp rest2
      simp only [objSortedKVs, Bool.and_eq_true] at hsk
      simp only [goodStringsKVs, Bool.and_eq_true] at hg
      have hlt := sorted_append_head acc k v t hsort
      have hbig := mapInsert_big acc k v hlt
      rw [objLoop_succ]
      cases t with
      | nil =>
        simp only [fuelForKVs] at hfl
        rw [show serializeObjBody [(k, v)] ++ (rbraceB :: rest2)
            = stream_string k ++ (colonB :: 32 :: (serializeValue v ++ (rbraceB :: rest2)))
            from by
          rw [show serializeObjBody [(k, v)]
              = stream_string k ++ bytes ": " ++ serializeValue v from by
            simp [serializeObjBody]]
          rw [show bytes ": " = [colonB, 32] from rfl]
          simp [List.append_assoc]]
        rw [parse_string_run strict sp k _ hsp hg.1.1 []]
        simp only [List.nil_append]
        rw [show (colonB :: 32 :: (serializeValue v ++ (rbraceB :: rest2)) : List Byte)
            = (colonB :: []) ++ (32 :: (serializeValue v ++ (rbraceB :: rest2))) from rfl,
          matchLit_run0 colonB [] (by decide) _]
        simp only []
        have hv := ihval v hsk.1 hg.1.2 (by omega) [32] (by decide) (rbraceB :: rest2)
          (restOK_rbrace rest2)
        rw [show (32 : Byte) :: (serializeValue v ++ (rbraceB :: rest2))
            = [32] ++ (serializeValue v ++ (rbraceB :: rest2)) from rfl, hv, eofAfter_cons]
        simp only []
        rw [matchLit_mismatch0 commaB [] rbraceB rest2 (by decide) (by decide)]
        simp only []
        rw [hbig]
      | cons p2 t2 =>
        rcases p2 with ⟨k2, v2⟩
        simp only [fuelForKVs] at hfl
        have hvp := fuelFor_pos v
        rw [show serializeObjBody ((k, v) :: (k2, v2) :: t2) ++ (rbraceB :: rest2)
            = stream_string k ++ (colonB :: 32 :: (serializeValue v
                ++ (commaB :: 32
                  :: (serializeObjBody ((k2, v2) :: t2) ++ (rbraceB :: rest2)))))
            from by
          rw [show serializeObjBody ((k, v) :: (k2, v2) :: t2)
              = stream_string k ++ bytes ": " ++ serializeValue v ++ bytes ", "
                  ++ serializeObjBody ((k2, v2) :: t2) from by
            simp [serializeObjBody]]
          rw [show bytes ": " = [colonB, 32] from rfl,
            show bytes ", " = [commaB, 32] from rfl]
          simp [List.append_assoc]]
        rw [parse_string_run strict sp k _ hsp hg.1.1 []]
        simp only [List.nil_append]
        rw [show (colonB :: 32 :: (serializeValue v
              ++ (commaB :: 32 :: (serializeObjBody ((k2, v2) :: t2) ++ (rbraceB :: rest2))))
              : List Byte)
            = (colonB :: []) ++ (32 :: (serializeValue v
              ++ (commaB :: 32 :: (serializeObjBody ((k2, v2) :: t2) ++ (rbraceB :: rest2)))))
            from rfl,
          matchLit_run0 colonB [] (by decide) _]
        simp only []
        have hv := ihval v hsk.1 hg.1.2 (by omega) [32] (by decide)
          (commaB :: 32 :: (serializeObjBody ((k2, v2) :: t2) ++ (rbraceB :: rest2)))
          (restOK_comma _)
        rw [show (32 : Byte) :: (serializeValue v
              ++ (commaB :: 32 :: (serializeObjBody ((k2, v2) :: t2) ++ (rbraceB :: rest2))))
            = [32] ++ (serializeValue v
              ++ (commaB :: 32 :: (serializeObjBody ((k2, v2) :: t2) ++ (rbraceB :: rest2))))
            from rfl, hv, eofAfter_cons]
        simp only []
        rw [show (commaB :: 32 :: (serializeObjBody ((k2, v2) :: t2) ++ (rbraceB :: rest2))
              : List Byte)
            = (commaB :: []) ++ (32 :: (serializeObjBody ((k2, v2) :: t2)
                ++ (rbraceB :: rest2))) from rfl,
          matchLit_run0 commaB [] (by decide) _]
        simp only []
        have hsort2 : keysSortedB (mapInsert acc k v ++ (k2, v2) :: t2) = true := by
          rw [hbig]
          simpa [List.append_assoc] using hsort
        have hlp := ihobjLp k2 v2 t2 (mapInsert acc k v) hsort2 hsk.2 hg.2
          (by simp only [fuelForKVs]; omega) [32] (by decide) rest2
        rw [show (32 : Byte) :: (serializeObjBody ((k2, v2) :: t2) ++ (rbraceB :: rest2))
            = [32] ++ (serializeObjBody ((k2, v2) :: t2) ++ (rbraceB :: rest2)) from rfl,
          hlp]
        rw [hbig]
        simp

theorem objSortedList_snoc (v : JValue) (hv : objSortedB v = true) :
    ∀ (l : List JValue), objSortedList l = true → objSortedList (l ++ [v]) = true := by
  intro l
  induction l with
  | nil => intro _; simp [objSortedList, hv]
  | cons a t ih =>
    intro hl
    simp only [objSortedList, Bool.and_eq_true] at hl
    simp only [List.cons_append, objSortedList, Bool.and_eq_true]
    exact ⟨hl.1, ih hl.2⟩

theorem objSortedKVs_mapInsert (k : List Byte) (v : JValue) (hv : objSortedB v = true) :
    ∀ (m : List (List Byte × JValue)), objSortedKVs m = true →
    objSortedKVs (mapInsert m k v) = true := by
  intro m
  induction m with
  | nil => intro _; simp [mapInsert, objSortedKVs, hv]
  | cons p t ih =>
    intro hm
    rcases p with ⟨k1, v1⟩
    simp only [objSortedKVs, Bool.and_eq_true] at hm
    rw [mapInsert_cons]
    split_ifs with h1 h2
    · simp only [objSortedKVs, Bool.and_eq_true]
      exact ⟨hv, hm.1, hm.2⟩
    · simp only [objSortedKVs, Bool.and_eq_true]
      exact ⟨hm.1, ih hm.2⟩
    · simp only [objSortedKVs, Bool.and_eq_true]
      exact ⟨hv, hm.2⟩

theorem parse_sorted_master (strict : Bool) : ∀ (fuel : Nat),
    (∀ (s : IStream) (v : JValue) (s1 : IStream),
      Value.parse strict fuel s = (some v, s1) → objSortedB v = true) ∧
    (∀ (s : IStream) (vs : List JValue) (s1 : IStream),
      Array.parse strict fuel s = (some vs, s1) → objSortedList vs = true) ∧
    (∀ (s : IStream) (acc vs : List JValue) (s1 : IStream),
      Array.loop strict fuel s acc = (vs, s1) → objSortedList acc = true →
      objSortedList vs = true) ∧
    (∀ (s : IStream) (kvs : List (List Byte × JValue)) (s1 : IStream),
      Object.parse strict fuel s = (some kvs, s1) →
      keysSortedB kvs = true ∧ objSortedKVs kvs = true) ∧
    (∀ (s : IStream) (acc res : List (List Byte × JValue)) (s1 : IStream),
      Object.loop strict fuel s acc = (some res, s1) →
      keysSortedB acc = true → objSortedKVs acc = true →
      keysSortedB res = true ∧ objSortedKVs res = true) := by
  intro fuel
  induction fuel with
  | zero =>
    refine ⟨?_, ?_, ?_, ?_, ?_⟩
    · intro s v s1 h
      rw [show Value.parse strict 0 s = (none, s) from rfl] at h
      exact absurd h (by simp)
    · intro s vs s1 h
      rw [show Array.parse strict 0 s = (none, s) from rfl] at h
      exact absurd h (by simp)
    · intro s acc vs s1 h hacc
      rw [show Array.loop strict 0 s acc = (acc, s) from rfl] at h
      simp only [Prod.mk.injEq] at h
      rw [← h.1]
      exact hacc
    · intro s kvs s1 h
      cases h
    · intro s acc res s1 h hks hsk
      rw [show Object.loop strict 0 s acc = (some acc, s) from rfl] at h
      simp only [Prod.mk.injEq, Option.some.injEq] at h
      rw [← h.1]
      exact ⟨hks, hsk⟩
  | succ fuel ih =>
    obtain ⟨ihval, iharr, iharrLp, ihobj, ihobjLp⟩ := ih
    refine ⟨?_, ?_, ?_, ?_, ?_⟩
    · -- Value::parse yields sorted objects
      intro s v s1 h
      rw [valParse_succ] at h
      rcases hps : parse_string strict s [] with ⟨b, sv, t1⟩
      rw [hps] at h
      cases b with
      | true =>
        simp only [Prod.mk.injEq, Option.some.injEq] at h
        rw [← h.1]
        rfl
      | false =>
        simp only [] at h
        rcases hpn : parse_number t1 with ⟨rn, t2⟩
        rw [hpn] at h
        cases rn with
        | some n =>
          simp only [Prod.mk.injEq, Option.some.injEq] at h
          rw [← h.1]
          rfl
        | none =>
          simp only [] at h
          rcases hpb : parse_bool t2 with ⟨rb, t3⟩
          rw [hpb] at h
          cases rb with
          | some b2 =>
            simp only [Prod.mk.injEq, Option.some.injEq] at h
            rw [← h.1]
            rfl
          | none =>
            simp only [] at h
            rcases hpu : parse_null strict t3 with ⟨bn, t4⟩
            rw [hpu] at h
            cases bn with
            | true =>
              simp only [Prod.mk.injEq, Option.some.injEq] at h
              rw [← h.1]
              rfl
            | false =>
              simp only [] at h
              rcases hpk : IStream.peek t4 with ⟨rk, t5⟩
              rw [hpk] at h
              simp only [] at h
              by_cases hrk : rk = some lbrackB
              · rw [if_pos hrk] at h
                rcases harr : Array.parse strict fuel t5 with ⟨ra, t6⟩
                rw [harr] at h
                cases ra with
                | some vs =>
                  simp only [Prod.mk.injEq, Option.some.injEq] at h
                  rw [← h.1]
                  simp only [objSortedB]
                  exact iharr t5 vs t6 harr
                | none =>
                  simp only [] at h
                  rcases hobj : Object.parse strict fuel t6 with ⟨ro, t7⟩
                  rw [hobj] at h
                  cases ro with
                  | some kvs =>
                    simp only [Prod.mk.injEq, Option.some.injEq] at h
                    rw [← h.1]
                    simp only [objSortedB, Bool.and_eq_true]
                    exact ihobj t6 kvs t7 hobj
                  | none => exact absurd h (by simp)
              · rw [if_neg hrk] at h
                rcases hobj : Object.parse strict fuel t5 with ⟨ro, t7⟩
                rw [hobj] at h
                cases ro with
                | some kvs =>
                  simp only [Prod.mk.injEq, Option.some.injEq] at h
                  rw [← h.1]
                  simp only [objSortedB, Bool.and_eq_true]
                  exact ihobj t5 kvs t7 hobj
                | none => exact absurd h (by simp)
    · -- Array::parse yields sorted elements
      intro s vs s1 h
      rw [arrParse_succ] at h
      rcases hm1 : matchLit [lbrackB] s with ⟨b1, t1⟩
      rw [hm1] at h
      cases b1 with
      | false => exact absurd h (by simp)
      | true =>
        simp only [] at h
        rcases hlp : Array.loop strict fuel t1 [] with ⟨vs2, t2⟩
        rw [hlp] at h
        simp only [] at h
        rcases hm2 : matchLit [rbrackB] t2 with ⟨b2, t3⟩
        rw [hm2] at h
        cases b2 with
        | true =>
          simp only [Prod.mk.injEq, Option.some.injEq] at h
          rw [← h.1]
          exact iharrLp t1 [] vs2 t2 hlp rfl
        | false => exact absurd h (by simp)
    · -- the element loop preserves sortedness
      intro s acc vs s1 h hacc
      rw [arrLoop_succ] at h
      rcases hv : Value.parse strict fuel s with ⟨rv, t1⟩
      rw [hv] at h
      cases rv with
      | none =>
        simp only [Prod.mk.injEq] at h
        rw [← h.1]
        exact hacc
      | some v =>
        simp only [] at h
        rcases hm : matchLit [commaB] t1 with ⟨bm, t2⟩
        rw [hm] at h
        cases bm with
        | true =>
          exact iharrLp t2 (acc ++ [v]) vs s1 h
            (objSortedList_snoc v (ihval s v t1 hv) acc hacc)
        | false =>
          simp only [Prod.mk.injEq] at h
          rw [← h.1]
          exact objSortedList_snoc v (ihval s v t1 hv) acc hacc
    · -- Object::parse yields a sorted map of sorted values
      intro s kvs s1 h
      rw [objParse_succ] at h
      rcases hm1 : matchLit [lbraceB] s with ⟨b1, t1⟩
      rw [hm1] at h
      cases b1 with
      | false => exact absurd h (by simp)
      | true =>
        simp only [] at h
        rcases hm2 : matchLit [rbraceB] t1 with ⟨b2, t2⟩
        rw [hm2] at h
        cases b2 with
        | true =>
          simp only [Prod.mk.injEq, Option.some.injEq] at h
          rw [← h.1]
          exact ⟨rfl, rfl⟩
        | false =>
          simp only [] at h
          rcases hlp : Object.loop strict fuel t2 [] with ⟨rl, t3⟩
          rw [hlp] at h
          cases rl with
          | none => exact absurd h (by simp)
          | some kvs2 =>
            simp only [] at h
            rcases hm3 : matchLit [rbraceB] t3 with ⟨b3, t4⟩
            rw [hm3] at h
            cases b3 with
            | true =>
              simp only [Prod.mk.injEq, Option.some.injEq] at h
              rw [← h.1]
              exact ihobjLp t2 [] kvs2 t3 hlp rfl rfl
            | false => exact absurd h (by simp)
    · -- the pair loop preserves sortedness
      intro s acc res s1 h hks hsk
      rw [objLoop_succ] at h
      rcases hps : parse_string strict s [] with ⟨b, key, t1⟩
      rw [hps] at h
      cases b with
      | false =>
        simp only [] at h
        cases strict with
        | true => exact absurd h (by simp)
        | false =>
          simp only [Bool.false_eq_true, if_false] at h
          rcases hpk : IStream.peek t1 with ⟨rk, t2⟩
          rw [hpk] at h
          simp only [] at h
          by_cases hrk : rk = some rbraceB
          · rw [if_pos hrk] at h
            simp only [Prod.mk.injEq, Option.some.injEq] at h
            rw [← h.1]
            exact ⟨hks, hsk⟩
          · rw [if_neg hrk] at h
            exact absurd h (by simp)
      | true =>
        simp only [] at h
        rcases hm1 : matchLit [colonB] t1 with ⟨bc, t2⟩
        rw [hm1] at h
        cases bc with
        | false => exact absurd h (by simp)
        | true =>
          simp only [] at h
          rcases hv : Value.parse strict fuel t2 with ⟨rv, t3⟩
          rw [hv] at h
          cases rv with
          | none =>
            simp only [Prod.mk.injEq, Option.some.injEq] at h
            rw [← h.1]
            exact ⟨hks, hsk⟩
          | some v =>
            simp only [] at h
            rcases hm2 : matchLit [commaB] t3 with ⟨bm, t4⟩
            rw [hm2] at h
            cases bm with
            | true =>
              exact ihobjLp t4 (mapInsert acc key v) res s1 h
                ((mapInsert_sorted key v acc hks).1)
                (objSortedKVs_mapInsert key v (ihval t2 v t3 hv) acc hsk)
            | false =>
              simp only [Prod.mk.injEq, Option.some.injEq] at h
              rw [← h.1]
              exact ⟨(mapInsert_sorted key v acc hks).1,
                objSortedKVs_mapInsert key v (ihval t2 v t3 hv) acc hsk⟩

/-- Claim C1 (amended): round-trip idempotence holds for every successfully
parsed tree whose strings and keys consist of round-trip-safe bytes (printable
32..127 or one of the five control bytes with two-character escapes, see
goodStrB and the counterexample): if a parse of any document D yields the tree
v, then serializing v and re-parsing the serialized text yields exactly v
again, variant by variant and recursively -- object key order needs no
normalization because parse output is always key-sorted (parse_sorted_master)
and the serializer walks the stored order.  Without the byte restriction the
claim is false, see C1_roundtrip_counterexample. -/
theorem C1_roundtrip_amended (strict strict2 : Bool) (fuel0 : Nat) (D : List Byte)
    (v : JValue) (s1 : IStream)
    (hparse : Value.parse strict fuel0 ⟨D, false, false⟩ = (some v, s1))
    (hgood : goodStringsB v = true) :
    (Value.parse strict2 (fuelFor v) ⟨serializeValue v, false, false⟩).1 = some v := by
  have hsort := (parse_sorted_master strict fuel0).1 ⟨D, false, false⟩ v s1 hparse
  have h := (roundtrip_master strict2 (fuelFor v)).1 v hsort hgood le_rfl [] rfl [] rfl
  rw [show ([] : List Byte) ++ (serializeValue v ++ []) = serializeValue v from by simp] at h
  rw [h]

theorem C1_roundtrip_amended_witness :
    (Value.parse false (fuelFor (JValue.obj [([97], JValue.number 1 0)]))
        ⟨serializeValue (JValue.obj [([97], JValue.number 1 0)]), false, false⟩).1
      = some (JValue.obj [([97], JValue.number 1 0)]) :=
  C1_roundtrip_amended false false 9 (bytes "\x7b'a':1\x7d")
    (JValue.obj [([97], JValue.number 1 0)]) ⟨[], false, false⟩ (by decide) (by decide)
